import Mathlib

/-!
Formal model of the Balsa random-forest training and inference core.

This file is a shallow embedding, in Lean 4, of the C++ sources under
Sources/ (datatools.h, indexeddecisiontree.h, decisiontreeclassifier.h,
ensembleclassifier.h, datamodel.h).  Conventions of the embedding:

* `Label`, `FeatureID`, `NodeID`, `DataPointID` are modelled as `Nat`.
  The sources statically assert that `Label` is an unsigned 8-bit type
  (indexeddecisiontree.h, line 41); where that 8-bit width is
  behaviourally relevant (the loop counter of
  `LabelFrequencyTable::getMostFrequentLabel`) it is modelled explicitly
  with arithmetic modulo 256.
* Feature values and the impurity type are modelled as `ℚ`.  The C++
  code computes in `float` or `double`; every property proved here is
  driven by comparisons and by exact small-integer arithmetic, which
  agree with the floating-point evaluation on the concrete inputs used.
* `std::valarray`/`std::vector` become `List`; row-major matrices are
  flat lists addressed as `row * featureCount + col`, read with `getD`
  (out-of-range access, an assertion failure / UB in C++, defaults to 0).
* `std::size_t` arithmetic on counts is modelled as `Nat` with truncated
  subtraction; the sources assert the corresponding preconditions
  (`decrement` requires a positive count) before every subtraction.
* Exceptions (`ClientError`) become `Except BalsaError`.
-/

namespace Balsa

/-- Error type corresponding to exceptions.h (not part of the covered
sources; only `ClientError` is thrown by the embedded code). -/
inductive BalsaError where
  | clientError : String → BalsaError
  deriving DecidableEq, Repr

/-! ### LabelFrequencyTable (datatools.h, lines 9-123)

A table counting occurrences of labels: a `valarray` of counts
(`m_data`) plus a running total (`m_total`). -/

structure LabelFrequencyTable where
  data : List Nat
  total : Nat
  deriving DecidableEq, Repr

namespace LabelFrequencyTable

/-- Constructor `LabelFrequencyTable(Label exclusiveUpperLimit)`
(datatools.h line 17): zeroed counts, zero total.  The C++ argument has
type `Label` (unsigned 8-bit), so only sizes up to 255 are reachable
through this constructor. -/
def ofSize (exclusiveUpperLimit : Nat) : LabelFrequencyTable :=
  ⟨List.replicate exclusiveUpperLimit 0, 0⟩

/-- One step of the iterator-range constructor's loop (datatools.h lines
29-36): grow the table if a large label is found, then count it. -/
def countLabel (d : List Nat) (label : Nat) : List Nat :=
  let d' := if label < d.length then d else d ++ List.replicate (label + 1 - d.length) 0
  d'.set label (d'.getD label 0 + 1)

/-- Iterator-range constructor (datatools.h lines 26-40): count every
label, growing the storage on demand; the total is the range length. -/
def ofLabels (labels : List Nat) : LabelFrequencyTable :=
  ⟨labels.foldl countLabel [], labels.length⟩

/-- `increment` (datatools.h lines 47-52).  Precondition (assertion in
the source): `label < size`. -/
def increment (t : LabelFrequencyTable) (label : Nat) : LabelFrequencyTable :=
  ⟨t.data.set label (t.data.getD label 0 + 1), t.total + 1⟩

/-- `decrement` (datatools.h lines 58-63).  Precondition (assertion in
the source): the count of `label` is positive; subtraction is truncated
at zero where C++ `size_t` would wrap. -/
def decrement (t : LabelFrequencyTable) (label : Nat) : LabelFrequencyTable :=
  ⟨t.data.set label (t.data.getD label 0 - 1), t.total - 1⟩

/-- `getCount` (datatools.h lines 68-72). -/
def getCount (t : LabelFrequencyTable) (label : Nat) : Nat :=
  t.data.getD label 0

/-- `getTotal` (datatools.h lines 77-80). -/
def getTotal (t : LabelFrequencyTable) : Nat :=
  t.total

/-- `size` (datatools.h lines 85-88). -/
def size (t : LabelFrequencyTable) : Nat :=
  t.data.length

/-- `giniImpurity` (datatools.h lines 94-100), transcribed exactly:

    auto squaredCounts = m_data * m_data;
    return FloatType( 1.0 ) - static_cast of squaredCounts.sum() / m_total;

i.e. one minus the sum of squared counts divided by the total (the total
appears to the first power, as in the source).  Precondition (assertion
in the source): `total > 0`. -/
def giniImpurity (t : LabelFrequencyTable) : ℚ :=
  1 - ((t.data.map fun c => (c : ℚ) * (c : ℚ)).sum) / (t.total : ℚ)

/-- The first `n` iterations of the `getMostFrequentLabel` loop
(datatools.h lines 108-115), skipping every label whose count does not
strictly exceed the best count so far.  The accumulator is the pair
(best, bestCount), initially (0, 0). -/
def mflFold (d : List Nat) (n : Nat) : Nat × Nat :=
  (List.range n).foldl
    (fun (acc : Nat × Nat) l =>
      if d.getD l 0 ≤ acc.2 then acc else (l, d.getD l 0))
    (0, 0)

/-- The Nat-valued model of the `getMostFrequentLabel` loop (datatools.h
lines 105-117): scan labels upward, remembering the first label whose
count strictly exceeds the best count so far.  This model uses an exact
(unbounded) loop counter; it coincides with the C++ loop whenever the
table has at most 255 bins, because the C++ counter has type `Label`
(unsigned 8-bit) and then never wraps.  See `mflStep` for the exact
8-bit behaviour. -/
def getMostFrequentLabel (t : LabelFrequencyTable) : Nat :=
  (mflFold t.data t.data.length).1

/-- One iteration of the `getMostFrequentLabel` loop body together with
the `++l` increment, with the loop counter modelled faithfully as an
unsigned 8-bit value (it wraps to 0 after 255).  State: (l, best,
bestCount). -/
def mflStep (d : List Nat) (s : Nat × Nat × Nat) : Nat × Nat × Nat :=
  if d.getD s.1 0 ≤ s.2.2 then ((s.1 + 1) % 256, s.2.1, s.2.2)
  else ((s.1 + 1) % 256, s.1, d.getD s.1 0)

/-- The loop of `getMostFrequentLabel` exits: after some number of
iterations from the initial state (l = 0, best = 0, bestCount = 0), the
loop condition `l < m_data.size()` fails. -/
def mflExits (d : List Nat) : Prop :=
  ∃ n, ¬ ((mflStep d)^[n] (0, 0, 0)).1 < d.length

/-- Result extracted from the 8-bit loop model after `d.length`
iterations (for tables of at most 255 bins the loop exits exactly
there). -/
def mflWrapped (d : List Nat) : Nat :=
  ((mflStep d)^[d.length] (0, 0, 0)).2.1

/-- The largest count appearing in the table (0 for an empty table). -/
def maxCount (t : LabelFrequencyTable) : Nat :=
  t.data.foldr max 0

end LabelFrequencyTable

/-! ### Feature index (indexeddecisiontree.h, lines 435-455 and 61-81)

An entry holds a feature value, the point id, and the point's label.
`operator<` compares entries by feature value only (line 449). -/

structure FeatureIndexEntry where
  featureValue : ℚ
  pointID : Nat
  label : Nat
  deriving DecidableEq, Inhabited, Repr

/-- Row-major matrix access `dataPoints[point * featureCount + feature]`
(indexeddecisiontree.h line 74 and the partition predicate on line 482). -/
def featureOf (dataPoints : List ℚ) (featureCount p f : Nat) : ℚ :=
  dataPoints.getD (p * featureCount + f) 0

/-- The entries pushed into a single-feature index before sorting
(constructor loop, indexeddecisiontree.h lines 70-77), in point order. -/
def rawEntries (dataPoints : List ℚ) (labels : List Nat) (featureCount pointCount f : Nat) :
    List FeatureIndexEntry :=
  (List.range pointCount).map fun p =>
    ⟨featureOf dataPoints featureCount p f, p, labels.getD p 0⟩

/-- The entry comparator used by the sort: feature values only. -/
def entryLE (a b : FeatureIndexEntry) : Prop :=
  a.featureValue ≤ b.featureValue

instance : DecidableRel entryLE :=
  fun a b => inferInstanceAs (Decidable (a.featureValue ≤ b.featureValue))

instance : IsTotal FeatureIndexEntry entryLE :=
  ⟨fun a b => le_total a.featureValue b.featureValue⟩

instance : IsTrans FeatureIndexEntry entryLE :=
  ⟨fun _ _ _ => le_trans⟩

/-- Postcondition of `std::sort(begin, end)` on a single-feature index
(indexeddecisiontree.h line 80): the result is SOME permutation of the
input that is sorted with respect to the comparator, which compares
feature values only.  `std::sort` is not a stable sort: the C++
standard leaves the relative order of entries with equal feature values
unspecified, so the source guarantees exactly this predicate and
nothing stronger.  Every conforming implementation's output satisfies
it; any list satisfying it is a possible output. -/
def isValidSortResult (raw idx : List FeatureIndexEntry) : Prop :=
  idx.Perm raw ∧ idx.Pairwise entryLE

/-- The tie policy asserted by the claim: entries with equal feature
value keep their original (point id) order. -/
def hasStableTies (idx : List FeatureIndexEntry) : Prop :=
  idx.Pairwise fun a b => a.featureValue = b.featureValue → a.pointID ≤ b.pointID

/-- Executable sort used by the executable model of the constructor: a
stable insertion sort, which is one conforming outcome of `std::sort`.
Theorems that depend on tie order are stated against
`isValidSortResult`, never against this particular choice. -/
def buildSingleFeatureIndex (dataPoints : List ℚ) (labels : List Nat)
    (featureCount pointCount f : Nat) : List FeatureIndexEntry :=
  List.insertionSort entryLE (rawEntries dataPoints labels featureCount pointCount f)

/-- The guarantee of `std::stable_partition` (indexeddecisiontree.h line
485): entries satisfying the predicate come first, followed by the
remaining entries, each group in its original relative order. -/
def stablePartition {α : Type} (p : α → Bool) (l : List α) : List α × List α :=
  (l.filter p, l.filter fun x => !(p x))

/-! ### Split candidates (indexeddecisiontree.h, lines 231-300) -/

/-- `std::numeric_limits of double :: max()`, the impurity of the
default-constructed (invalid) split candidate (line 242). -/
def floatMax : ℚ := 2 ^ 1024 - 2 ^ 971

structure SplitCandidate where
  splitFeature : Nat
  splitValue : ℚ
  leftCounts : LabelFrequencyTable
  rightCounts : LabelFrequencyTable
  impurity : ℚ
  deriving DecidableEq, Repr

namespace SplitCandidate

/-- Default constructor (lines 239-244): an invalid split, with empty
frequency tables and the maximal impurity. -/
def invalid : SplitCandidate :=
  ⟨0, 0, LabelFrequencyTable.ofSize 0, LabelFrequencyTable.ofSize 0, floatMax⟩

/-- Main constructor (lines 252-264): stores the split data and the
weighted post-split impurity
(giniLeft * leftCount + giniRight * rightCount) / totalCount. -/
def make (f : Nat) (v : ℚ) (L R : LabelFrequencyTable) : SplitCandidate :=
  ⟨f, v, L, R,
    (L.giniImpurity * (L.total : ℚ) + R.giniImpurity * (R.total : ℚ))
      / ((L.total : ℚ) + (R.total : ℚ))⟩

/-- `isValid` (lines 269-272): a candidate is valid iff its impurity is
at most 1. -/
def isValid (c : SplitCandidate) : Bool :=
  decide (c.impurity ≤ 1)

end SplitCandidate

/-! ### Tree nodes (indexeddecisiontree.h, lines 305-430) -/

structure Node where
  leftChild : Nat
  rightChild : Nat
  indexOffset : Nat
  splitFeature : Nat
  splitValue : ℚ
  distanceToRoot : Nat
  labelCounts : LabelFrequencyTable
  label : Nat
  deriving DecidableEq, Repr

namespace Node

/-- Node constructor (lines 315-323): a fresh leaf (both children 0)
holding the given frequency table, index offset and depth; the cached
label is the most frequent label of the table. -/
def make (labelCounts : LabelFrequencyTable) (indexOffset distanceToRoot : Nat) : Node :=
  ⟨0, 0, indexOffset, 0, 0, distanceToRoot, labelCounts, labelCounts.getMostFrequentLabel⟩

instance : Inhabited Node :=
  ⟨make ⟨[], 0⟩ 0 0⟩

/-- `isLeafNode` (lines 349-352): the left child id is 0. -/
def isLeafNode (n : Node) : Bool :=
  decide (n.leftChild = 0)

/-- `getPointCount` (lines 365-368): the total of the label counts. -/
def getPointCount (n : Node) : Nat :=
  n.labelCounts.total

end Node

/-! ### Per-feature split scan (indexeddecisiontree.h, lines 571-607) -/

/-- The scan loop of `findBestSplitForFeature` (lines 586-604).  The
walk carries the value of the current block of equal-valued entries,
the left and right frequency tables, and the best candidate so far.  At
each entry whose value strictly exceeds the current block value a
candidate is built from the tables as they stand; it replaces the best
candidate only if its impurity is strictly lower.  Then the block value
advances and the visited point's label is moved from the right table to
the left table. -/
def sweep (fid : Nat) : List FeatureIndexEntry → ℚ → LabelFrequencyTable → LabelFrequencyTable →
    SplitCandidate → SplitCandidate
  | [], _, _, _, best => best
  | e :: rest, currentBlockValue, leftCounts, rightCounts, best =>
    let best' :=
      if currentBlockValue < e.featureValue then
        let possible := SplitCandidate.make fid e.featureValue leftCounts rightCounts
        if possible.impurity < best.impurity then possible else best
      else best
    sweep fid rest e.featureValue (leftCounts.increment e.label)
      (rightCounts.decrement e.label) best'

/-- The slice of a single-feature index covering one node: `getPointCount`
entries starting at the node's index offset (lines 574-575). -/
def nodeSlice (nd : Node) (fi : List FeatureIndexEntry) : List FeatureIndexEntry :=
  (fi.drop nd.indexOffset).take nd.labelCounts.total

/-- `findBestSplitForFeature` (lines 571-607): scan the node's slice of
the feature's sorted index; the left table starts empty (with the node
table's bin count — the C++ constructor argument is an 8-bit `Label`,
faithful for the bin counts below 256 that the 8-bit label type
produces in any terminating run), the right table starts as a copy of
the node's table, and the current block value starts at the first
entry's value. -/
def findBestSplitForFeature (nd : Node) (fi : List FeatureIndexEntry) (fid : Nat)
    (minimalBestSplit : SplitCandidate) : SplitCandidate :=
  match nodeSlice nd fi with
  | [] => minimalBestSplit
  | e :: rest =>
    sweep fid (e :: rest) e.featureValue (LabelFrequencyTable.ofSize nd.labelCounts.size)
      nd.labelCounts minimalBestSplit

/-- The list of candidates proposed during the scan, in scan order: one
candidate at every entry whose value strictly exceeds the previous
block value, built from the left and right tables as they stand before
that entry's label is counted. -/
def proposedCandidates (fid : Nat) : List FeatureIndexEntry → ℚ → LabelFrequencyTable →
    LabelFrequencyTable → List SplitCandidate
  | [], _, _, _ => []
  | e :: rest, currentBlockValue, leftCounts, rightCounts =>
    (if currentBlockValue < e.featureValue
      then [SplitCandidate.make fid e.featureValue leftCounts rightCounts] else [])
      ++ proposedCandidates fid rest e.featureValue (leftCounts.increment e.label)
          (rightCounts.decrement e.label)

/-- Number of strict increases in a value sequence, counted against a
starting value. -/
def strictIncreases : ℚ → List ℚ → Nat
  | _, [] => 0
  | c, v :: vs => (if c < v then 1 else 0) + strictIncreases v vs

/-- The left frequency table as it stands when the scan reaches
position `j` of a slice: the base table with the labels of the first
`j` entries counted in — i.e. the state before the boundary entry at
position `j` itself is counted. -/
def leftTableAt (base : LabelFrequencyTable) (slice : List FeatureIndexEntry) (j : Nat) :
    LabelFrequencyTable :=
  (slice.take j).foldl (fun t e => t.increment e.label) base

/-- The right frequency table as it stands when the scan reaches
position `j` of a slice: the base table with the labels of the first
`j` entries removed. -/
def rightTableAt (base : LabelFrequencyTable) (slice : List FeatureIndexEntry) (j : Nat) :
    LabelFrequencyTable :=
  (slice.take j).foldl (fun t e => t.decrement e.label) base

/-- All candidates proposed while `findBestSplitForFeature` scans a
node's slice, with the initial block value, left table and right table
of the source (lines 580-582). -/
def scanCandidates (nd : Node) (fi : List FeatureIndexEntry) (fid : Nat) :
    List SplitCandidate :=
  match nodeSlice nd fi with
  | [] => []
  | e :: rest =>
    proposedCandidates fid (e :: rest) e.featureValue
      (LabelFrequencyTable.ofSize nd.labelCounts.size) nd.labelCounts

/-! ### The indexed decision tree state
(indexeddecisiontree.h, lines 23-652)

The mutable state of one `IndexedDecisionTree`: the immutable training
data and parameters, the FIFO of growable leaves, the append-only node
arena, the per-feature sorted indices, and the position of the weighted
coin in its flip stream.  The weighted coin itself (weightedcoin.h is
not among the covered sources) is passed as a function `flip` from the
flip position and the two arguments `(remainingPicks, remainingItems)`
to the drawn boolean; see `FairCoin` below. -/

structure TreeState where
  dataPoints : List ℚ
  pointCount : Nat
  featureCount : Nat
  featuresToConsider : Nat
  maximumDistanceToRoot : Nat
  impurityThreshold : ℚ
  growableLeaves : List Nat
  nodes : List Node
  featureIndex : List (List FeatureIndexEntry)
  coinTime : Nat

/-- Look up a node in the arena (out-of-range access is UB in C++ and
defaults to the default node here; well-formedness excludes it). -/
def getNode (s : TreeState) (nodeID : Nat) : Node :=
  s.nodes.getD nodeID default

/-- `isGrowableNode` (lines 624-638): a leaf can be grown iff its depth
is below the maximum and its Gini impurity exceeds the threshold. -/
def isGrowableNode (s : TreeState) (nodeID : Nat) : Bool :=
  let nd := getNode s nodeID
  if s.maximumDistanceToRoot ≤ nd.distanceToRoot then false
  else if decide (nd.labelCounts.giniImpurity ≤ s.impurityThreshold) then false
  else true

/-- The in-place stable partition of every single-feature index other
than the split feature (lines 470-493): within the node's slice, the
points on the left of the split (split-feature value strictly below the
split value) come first, both sides keeping their relative order. -/
def partitionFeatureIndex (s : TreeState) (nd : Node) (splitFeature : Nat) (splitValue : ℚ) :
    List (List FeatureIndexEntry) :=
  (List.range s.featureIndex.length).map fun f =>
    let fi := s.featureIndex.getD f []
    if f = splitFeature then fi
    else
      let slice := (fi.drop nd.indexOffset).take nd.labelCounts.total
      let pr := stablePartition
        (fun e => decide (featureOf s.dataPoints s.featureCount e.pointID splitFeature < splitValue))
        slice
      fi.take nd.indexOffset ++ pr.1 ++ pr.2 ++ fi.drop (nd.indexOffset + nd.labelCounts.total)

/-- `splitNode` (lines 461-511): partition the feature indices, append
the two children (left child id = current arena size), store the split
and the child links in the parent, and enqueue each child that is still
growable. -/
def splitNode (s : TreeState) (nodeID : Nat) (c : SplitCandidate) : TreeState :=
  let nd := getNode s nodeID
  let leftChildID := s.nodes.length
  let rightChildID := leftChildID + 1
  let leftChild := Node.make c.leftCounts nd.indexOffset (nd.distanceToRoot + 1)
  let rightChild := Node.make c.rightCounts (nd.indexOffset + c.leftCounts.total)
    (nd.distanceToRoot + 1)
  let parent := { nd with
    splitFeature := c.splitFeature, splitValue := c.splitValue,
    leftChild := leftChildID, rightChild := rightChildID }
  let s1 := { s with
    featureIndex := partitionFeatureIndex s nd c.splitFeature c.splitValue,
    nodes := s.nodes.set nodeID parent ++ [leftChild, rightChild] }
  let q1 := if isGrowableNode s1 leftChildID then s1.growableLeaves ++ [leftChildID]
    else s1.growableLeaves
  let q2 := if isGrowableNode s1 rightChildID then q1 ++ [rightChildID] else q1
  { s1 with growableLeaves := q2 }

/-- The feature-selection loop of `findBestSplit` (lines 527-544):
iterate over the remaining features; a coin flip with arguments
(featuresToScan, featuresLeft) decides whether the feature is scanned
(using up one credit) or appended to the skipped list. -/
def scanFeatures (flip : Nat → Nat → Nat → Bool) (nd : Node)
    (fidx : List (List FeatureIndexEntry)) :
    Nat → Nat → List Nat → SplitCandidate → List Nat → SplitCandidate × List Nat × Nat
  | t, _, skipped, best, [] => (best, skipped, t)
  | t, featuresToScan, skipped, best, f :: fs =>
    if flip t featuresToScan (fs.length + 1) then
      scanFeatures flip nd fidx (t + 1) (featuresToScan - 1) skipped
        (findBestSplitForFeature nd (fidx.getD f []) f best) fs
    else
      scanFeatures flip nd fidx (t + 1) featuresToScan (skipped ++ [f]) best fs

/-- The fallback loop of `findBestSplit` (lines 551-556): scan the
skipped features in order, returning as soon as a valid candidate
appears; if none appears the threaded candidate is returned. -/
def fallbackScan (nd : Node) (fidx : List (List FeatureIndexEntry)) :
    SplitCandidate → List Nat → SplitCandidate
  | best, [] => best
  | best, f :: fs =>
    let best' := findBestSplitForFeature nd (fidx.getD f []) f best
    if best'.isValid then best' else fallbackScan nd fidx best' fs

/-- `findBestSplit` (lines 517-563): the randomized selection pass
followed, if it produced no valid split, by the fallback pass over the
skipped features.  Returns the candidate and the advanced coin
position. -/
def findBestSplit (flip : Nat → Nat → Nat → Bool) (s : TreeState) (nodeID : Nat) :
    SplitCandidate × Nat :=
  let nd := getNode s nodeID
  let r := scanFeatures flip nd s.featureIndex s.coinTime s.featuresToConsider []
    SplitCandidate.invalid (List.range s.featureCount)
  if r.1.isValid then (r.1, r.2.2)
  else (fallbackScan nd s.featureIndex r.1 r.2.1, r.2.2)

/-- `growLeaf` (lines 609-618): find the best split for the leaf and
apply it if it is valid; an unsplittable leaf is left untouched. -/
def growLeaf (flip : Nat → Nat → Nat → Bool) (s : TreeState) (nodeID : Nat) : TreeState :=
  let r := findBestSplit flip s nodeID
  let s' := { s with coinTime := r.2 }
  if r.1.isValid then splitNode s' nodeID r.1 else s'

/-- `isGrowable` (lines 124-127): the FIFO of growable leaves is
nonempty. -/
def isGrowable (s : TreeState) : Bool :=
  decide (0 < s.growableLeaves.length)

/-- `growNextLeaf` (lines 133-142): pop the front growable leaf and grow
it.  (The source asserts `isGrowable()`; on an empty queue this model
returns the state unchanged.) -/
def growNextLeaf (flip : Nat → Nat → Nat → Bool) (s : TreeState) : TreeState :=
  match s.growableLeaves with
  | [] => s
  | leaf :: rest => growLeaf flip { s with growableLeaves := rest } leaf

/-- `grow` (lines 116-119) with explicit fuel: repeat `growNextLeaf`
while any growable leaf remains, at most `fuel` times.  The C10 theorem
shows that fuel `growMeasure s` always suffices, which is exactly the
termination of the source's unbounded loop. -/
def growFuel (flip : Nat → Nat → Nat → Bool) : Nat → TreeState → TreeState
  | 0, s => s
  | fuel + 1, s => if isGrowable s then growFuel flip fuel (growNextLeaf flip s) else s

/-- The constructor (lines 49-93): build the sorted index for every
feature, count all labels, create the root node over the whole data
set, and enqueue it if it is growable.  Feature values are rationals
here, so the source's NaN rejection (line 75) can never fire and the
constructed state is returned directly. -/
def initTree (dataPoints : List ℚ) (labels : List Nat)
    (featureCount pointCount featuresToConsider maximumDistanceToRoot : Nat)
    (impurityThreshold : ℚ) : TreeState :=
  let featureIndex := (List.range featureCount).map fun f =>
    buildSingleFeatureIndex dataPoints labels featureCount pointCount f
  let labelCounts := LabelFrequencyTable.ofLabels (labels.take pointCount)
  let root := Node.make labelCounts 0 0
  let s : TreeState := ⟨dataPoints, pointCount, featureCount, featuresToConsider,
    maximumDistanceToRoot, impurityThreshold, [], [root], featureIndex, 0⟩
  { s with growableLeaves := if isGrowableNode s 0 then [0] else [] }

/-! ### Vote table

Modelled from the spec: the `VoteTable` type lives in classifier.h,
which is not among the covered sources.  Spec section 3 and section 4.9
describe it as a rectangular counter grid indexed by (point, class),
zero-initialized on construction, supporting per-cell increment and
(weighted) row argmax with ties broken toward the lowest class index
(weights applied by multiplication before comparison). -/

structure VoteTable where
  rows : Nat
  cols : Nat
  data : List Nat
  deriving DecidableEq, Repr

namespace VoteTable

/-- Modelled from the spec: a freshly constructed vote table is zeroed. -/
def zero (rows cols : Nat) : VoteTable :=
  ⟨rows, cols, List.replicate (rows * cols) 0⟩

/-- Cell lookup, row-major. -/
def get (t : VoteTable) (r c : Nat) : Nat :=
  t.data.getD (r * t.cols + c) 0

/-- Modelled from the spec: add one vote to a cell. -/
def increment (t : VoteTable) (r c : Nat) : VoteTable :=
  ⟨t.rows, t.cols, t.data.set (r * t.cols + c) (t.get r c + 1)⟩

/-- Modelled from the spec: the lowest column holding the row maximum. -/
def getColumnOfRowMaximum (t : VoteTable) (r : Nat) : Nat :=
  ((List.range t.cols).foldl
    (fun (acc : Nat × Nat) c => if acc.2 < t.get r c then (c, t.get r c) else acc)
    (0, t.get r 0)).1

/-- Modelled from the spec: the lowest column holding the row maximum of
the weight-scaled counts. -/
def getColumnOfWeightedRowMaximum (t : VoteTable) (r : Nat) (weights : List ℚ) : Nat :=
  ((List.range t.cols).foldl
    (fun (acc : Nat × ℚ) c =>
      if acc.2 < weights.getD c 0 * (t.get r c : ℚ) then (c, weights.getD c 0 * (t.get r c : ℚ))
      else acc)
    (0, weights.getD 0 0 * (t.get r 0 : ℚ))).1

end VoteTable

/-! ### Flat decision-tree classifier (decisiontreeclassifier.h) -/

/-- The five parallel columnar tables of the flat classifier
(decisiontreeclassifier.h, lines 164-170), plus the class and feature
counts. -/
structure DecisionTreeClassifier where
  classCount : Nat
  featureCount : Nat
  leftChildID : List Nat
  rightChildID : List Nat
  splitFeatureID : List Nat
  splitValue : List ℚ
  label : List Nat
  deriving DecidableEq, Repr

namespace DecisionTreeClassifier

/-- `recursiveClassifyVote` (decisiontreeclassifier.h, lines 123-155):
at an interior node, partition the point-id slice by
`point[featureID] < splitValue` and recurse on both halves; at a leaf,
add one vote per point for the leaf label.  The recursion is bounded by
explicit fuel (every non-leaf row of a well-formed classifier points to
strictly larger row indices, so `nodeCount + 1` fuel always suffices;
both entry points below use the same fuel, which is all the agreement
property needs).  The source partitions with `std::partition`, whose
within-side order is unspecified; the model keeps the stable order, and
the resulting vote table does not depend on that order because each
point contributes exactly one vote determined by its own features. -/
def recursiveClassifyVote (c : DecisionTreeClassifier) (points : List ℚ) :
    Nat → List Nat → VoteTable → Nat → VoteTable
  | 0, _, table, _ => table
  | fuel + 1, pointIDs, table, currentNodeID =>
    if 0 < c.leftChildID.getD currentNodeID 0 then
      let splitValue := c.splitValue.getD currentNodeID 0
      let featureID := c.splitFeatureID.getD currentNodeID 0
      let pr := pointIDs.partition fun p =>
        decide (points.getD (c.featureCount * p + featureID) 0 < splitValue)
      let t1 := recursiveClassifyVote c points fuel pr.1 table (c.leftChildID.getD currentNodeID 0)
      recursiveClassifyVote c points fuel pr.2 t1 (c.rightChildID.getD currentNodeID 0)
    else
      pointIDs.foldl (fun t p => t.increment p (c.label.getD currentNodeID 0)) table

/-- `classifyAndVote` (decisiontreeclassifier.h, lines 91-113): reject
inputs whose length is not a multiple of the feature count, then walk
all point ids through the tree from the root, accumulating votes into
the given table. -/
def classifyAndVote (c : DecisionTreeClassifier) (points : List ℚ) (table : VoteTable) :
    Except BalsaError VoteTable :=
  if points.length % c.featureCount ≠ 0 then Except.error (BalsaError.clientError "Malformed dataset.")
  else
    let pointCount := points.length / c.featureCount
    Except.ok (recursiveClassifyVote c points (c.leftChildID.length + 1)
      (List.range pointCount) table 0)

/-- `classify` (decisiontreeclassifier.h, lines 50-77): reject
non-divisible inputs, build a private zeroed vote table, let
`classifyAndVote` fill it, and emit the lowest-index row maximum of
every point's row. -/
def classify (c : DecisionTreeClassifier) (points : List ℚ) : Except BalsaError (List Nat) :=
  if points.length % c.featureCount ≠ 0 then Except.error (BalsaError.clientError "Malformed dataset.")
  else
    let pointCount := points.length / c.featureCount
    (classifyAndVote c points (VoteTable.zero pointCount c.classCount)).map fun voteCounts =>
      (List.range pointCount).map fun p => voteCounts.getColumnOfRowMaximum p

end DecisionTreeClassifier

/-- `getDecisionTree` (indexeddecisiontree.h, lines 185-213): project
the node arena into the five columnar tables, preserving node
numbering; the class count is the bin count of the root's frequency
table (lines 98-102). -/
def getDecisionTree (s : TreeState) : DecisionTreeClassifier :=
  { classCount := (getNode s 0).labelCounts.size
    featureCount := s.featureCount
    leftChildID := s.nodes.map fun n => n.leftChild
    rightChildID := s.nodes.map fun n => n.rightChild
    splitFeatureID := s.nodes.map fun n => n.splitFeature
    splitValue := s.nodes.map fun n => n.splitValue
    label := s.nodes.map fun n => n.label }

/-! ### Ensemble classifier (ensembleclassifier.h) -/

/-- The ensemble classifier (ensembleclassifier.h, lines 74-358).  The
classifier stream (classifierstream.h yields classifiers after a
rewind and reports class and feature counts) is modelled as the list of
decision trees it produces together with those counts.  Thread workers
are outside a shallow embedding; the multi-threaded path applies the
same trees to per-worker tables and folds them together, which by
commutativity of the per-cell counters yields the single-threaded
result, so `classifyAndVote` is modelled by the single-threaded loop
(lines 301-317).  What matters for the error-handling claim is that
`classify` performs its validation before either path is entered. -/
structure EnsembleClassifier where
  streamTrees : List DecisionTreeClassifier
  streamClassCount : Nat
  streamFeatureCount : Nat
  classWeights : List ℚ
  deriving DecidableEq, Repr

namespace EnsembleClassifier

/-- `classifyAndVoteSingleThreaded` (ensembleclassifier.h, lines
301-317): rewind the stream and let every tree vote into the shared
table in order. -/
def classifyAndVoteSingleThreaded (e : EnsembleClassifier) (points : List ℚ)
    (table : VoteTable) : Except BalsaError VoteTable :=
  e.streamTrees.foldlM
    (fun t tree => DecisionTreeClassifier.classifyAndVote tree points t) table

/-- `classify` (ensembleclassifier.h, lines 130-155): reject inputs
whose length is not a multiple of the stream's feature count BEFORE the
vote table is allocated, before the stream is touched and before any
worker could be created; for divisible inputs, derive the point count,
collect all votes, and emit the lowest-index weighted row maximum per
point. -/
def classify (e : EnsembleClassifier) (points : List ℚ) : Except BalsaError (List Nat) :=
  if points.length % e.streamFeatureCount ≠ 0 then Except.error (BalsaError.clientError "Malformed dataset.")
  else
    let pointCount := points.length / e.streamFeatureCount
    (classifyAndVoteSingleThreaded e points (VoteTable.zero pointCount e.streamClassCount)).map
      fun voteCounts => (List.range pointCount).map fun p =>
        voteCounts.getColumnOfWeightedRowMaximum p e.classWeights

end EnsembleClassifier

/-! ### The weighted coin and the growth measure -/

/-- Modelled from the spec: the weighted coin (weightedcoin.h is not
among the covered sources).  Spec section 4.10: `flip(remainingPicks,
remainingItems)` returns true with probability remainingPicks /
remainingItems, so it is deterministically false when no picks remain
and deterministically true when as many picks as items remain; these
two boundary facts are the hypotheses of the theorems below.  A coin is
any function from the flip position in the stream and the two arguments
to the drawn boolean.  `pickFirstCoin` is one conforming coin: it picks
while credits remain, i.e. it always selects the first
`featuresToConsider` features. -/
def pickFirstCoin : Nat → Nat → Nat → Bool :=
  fun _ remainingPicks _ => decide (0 < remainingPicks)

/-- Termination measure for tree growth: each queued leaf of n points
contributes 2n − 1.  Splitting a leaf replaces its contribution 2n − 1
by at most (2j − 1) + (2(n−j) − 1) = 2n − 2; dropping a leaf removes
2n − 1 ≥ 1. -/
def growMeasure (s : TreeState) : Nat :=
  (s.growableLeaves.map fun nodeID => 2 * (getNode s nodeID).labelCounts.total - 1).sum

/-- Well-formedness of the growable queue: no duplicate ids, and every
queued id denotes a leaf inside the arena holding at least one point.
It holds for the constructed initial state and is preserved by every
growth step. -/
def WFState (s : TreeState) : Prop :=
  s.growableLeaves.Nodup
  ∧ ∀ nodeID ∈ s.growableLeaves, nodeID < s.nodes.length
      ∧ (getNode s nodeID).isLeafNode = true
      ∧ 0 < (getNode s nodeID).labelCounts.total

/-! ### Facts about the label frequency table -/

namespace LabelFrequencyTable

/-- For every `l` bounded by the loop counter, the body of the
most-frequent-label fold keeps an accumulator that dominates all counts
seen so far, is the least achiever, and (unless nothing positive was
seen) points at a real achiever. -/
theorem mfl_fold_invariant (d : List Nat) (n : Nat) :
    (∀ l, l < n → d.getD l 0 ≤ (mflFold d n).2)
    ∧ (∀ l, l < n → d.getD l 0 = (mflFold d n).2 → (mflFold d n).1 ≤ l)
    ∧ (((mflFold d n).1 = 0 ∧ (mflFold d n).2 = 0)
        ∨ ((mflFold d n).1 < n ∧ d.getD (mflFold d n).1 0 = (mflFold d n).2)) := by
  induction n with
  | zero => exact ⟨fun l hl => absurd hl (Nat.not_lt_zero l), fun l hl => absurd hl (Nat.not_lt_zero l), Or.inl ⟨rfl, rfl⟩⟩
  | succ n ih =>
    obtain ⟨h1, h2, h3⟩ := ih
    have hstep : mflFold d (n + 1)
        = if d.getD n 0 ≤ (mflFold d n).2 then mflFold d n else (n, d.getD n 0) := by
      simp [mflFold, List.range_succ]
    by_cases hc : d.getD n 0 ≤ (mflFold d n).2
    · rw [hstep, if_pos hc]
      refine ⟨?_, ?_, ?_⟩
      · intro l hl
        rcases Nat.lt_succ_iff_lt_or_eq.mp hl with h | h
        · exact h1 l h
        · exact h ▸ hc
      · intro l hl he
        rcases Nat.lt_succ_iff_lt_or_eq.mp hl with h | h
        · exact h2 l h he
        · rcases h3 with ⟨hb, _⟩ | ⟨hb, _⟩ <;> omega
      · rcases h3 with h | ⟨hb, he⟩
        · exact Or.inl h
        · exact Or.inr ⟨Nat.lt_succ_of_lt hb, he⟩
    · rw [hstep, if_neg hc]
      push_neg at hc
      refine ⟨?_, ?_, Or.inr ⟨Nat.lt_succ_self n, rfl⟩⟩
      · intro l hl
        rcases Nat.lt_succ_iff_lt_or_eq.mp hl with h | h
        · exact Nat.le_of_lt (Nat.lt_of_le_of_lt (h1 l h) hc)
        · exact h ▸ Nat.le_refl _
      · intro l hl he
        rcases Nat.lt_succ_iff_lt_or_eq.mp hl with h | h
        · exact absurd he (Nat.ne_of_lt (Nat.lt_of_le_of_lt (h1 l h) hc))
        · exact h ▸ Nat.le_refl _

/-- Every count in the table is bounded by `maxCount`. -/
theorem le_maxCount (d : List Nat) : ∀ x ∈ d, x ≤ d.foldr max 0 := by
  induction d with
  | nil => intro x hx; cases hx
  | cons a d ih =>
    intro x hx
    rcases List.mem_cons.mp hx with h | h
    · exact h ▸ Nat.le_max_left _ _
    · exact Nat.le_trans (ih x h) (Nat.le_max_right _ _)

/-- `maxCount` is either zero or one of the stored counts. -/
theorem maxCount_mem (d : List Nat) : d.foldr max 0 = 0 ∨ d.foldr max 0 ∈ d := by
  induction d with
  | nil => exact Or.inl rfl
  | cons a d ih =>
    rcases Nat.le_total a (d.foldr max 0) with h | h
    · rw [List.foldr_cons, Nat.max_eq_right h]
      rcases ih with h0 | hm
      · exact Or.inl h0
      · exact Or.inr (List.mem_cons_of_mem a hm)
    · rw [List.foldr_cons, Nat.max_eq_left h]
      exact Or.inr (List.mem_cons_self a d)

/-- The 8-bit loop counter of `getMostFrequentLabel` is always below
256, no matter how many iterations have run. -/
theorem mflStep_fst_lt (d : List Nat) : ∀ n, ((mflStep d)^[n] (0, 0, 0)).1 < 256 := by
  intro n
  induction n with
  | zero => simp only [Function.iterate_zero_apply]; omega
  | succ n ih =>
    rw [Function.iterate_succ_apply']
    unfold mflStep
    split <;> exact Nat.mod_lt _ (by omega)

/-- On tables with at most 255 bins the 8-bit counter never wraps: after
`n ≤ size` iterations the loop state is exactly the state of the
unbounded fold. -/
theorem mflStep_iterate (d : List Nat) (hlen : d.length ≤ 255) :
    ∀ n, n ≤ d.length → (mflStep d)^[n] (0, 0, 0) = (n, (mflFold d n).1, (mflFold d n).2) := by
  intro n
  induction n with
  | zero => intro _; simp [mflFold]
  | succ n ih =>
    intro hn
    have hn' : n ≤ d.length := Nat.le_of_succ_le hn
    have hmod : (n + 1) % 256 = n + 1 := Nat.mod_eq_of_lt (by omega)
    have hfold : mflFold d (n + 1)
        = if d.getD n 0 ≤ (mflFold d n).2 then mflFold d n else (n, d.getD n 0) := by
      simp [mflFold, List.range_succ]
    rw [Function.iterate_succ_apply', ih hn', mflStep]
    by_cases hc : d.getD n 0 ≤ (mflFold d n).2
    · simp only [hc, if_pos, hfold, if_true, hmod]
    · simp only [hfold, hc, if_false, hmod]

end LabelFrequencyTable

/-- C9 counterexample: on a frequency table with 256 bins (built by the
iterator-range constructor from a label list containing the label 255,
here one occurrence of every label 0..255), the `getMostFrequentLabel`
loop never exits: its loop counter has the unsigned 8-bit type `Label`
(static assertion in indexeddecisiontree.h, line 41), so it wraps from
255 to 0 and stays strictly below `m_data.size() = 256` forever, and no
label is ever returned.  Hence the claim, quantified over every label
frequency table, fails. -/
theorem getMostFrequentLabel_diverges_on_256_bins :
    ¬ LabelFrequencyTable.mflExits (List.replicate 256 1) := by
  rintro ⟨n, h⟩
  apply h
  rw [List.length_replicate]
  exact LabelFrequencyTable.mflStep_fst_lt (List.replicate 256 1) n

/-- C9 (amended): for every nonempty label frequency table with at most
255 bins — every table whose bin count stays below the 8-bit loop
counter's wrap-around — `getMostFrequentLabel()` returns the lowest
label whose count equals the maximum count in the table; moreover on
such tables the exact 8-bit loop terminates and agrees with the
unbounded model. -/
theorem getMostFrequentLabel_lowest_max (t : LabelFrequencyTable)
    (h1 : 0 < t.size) (h2 : t.size ≤ 255) :
    t.getCount t.getMostFrequentLabel = t.maxCount
    ∧ (∀ l, t.getCount l = t.maxCount → t.getMostFrequentLabel ≤ l)
    ∧ LabelFrequencyTable.mflExits t.data
    ∧ LabelFrequencyTable.mflWrapped t.data = t.getMostFrequentLabel := by
  obtain ⟨hb, hleast, hwit⟩ := LabelFrequencyTable.mfl_fold_invariant t.data t.data.length
  have hsize : 0 < t.data.length := h1
  have hlen : t.data.length ≤ 255 := h2
  have hgm : t.getMostFrequentLabel = (LabelFrequencyTable.mflFold t.data t.data.length).1 := rfl
  have hgc : ∀ l, t.getCount l = t.data.getD l 0 := fun _ => rfl
  have hmaxd : t.maxCount = t.data.foldr max 0 := rfl
  have hmax : (LabelFrequencyTable.mflFold t.data t.data.length).2 = t.maxCount := by
    apply Nat.le_antisymm
    · rcases hwit with ⟨_, hc0⟩ | ⟨hlt, he⟩
      · rw [hc0]; exact Nat.zero_le _
      · have hmem : t.data.getD (LabelFrequencyTable.mflFold t.data t.data.length).1 0 ∈ t.data := by
          rw [t.data.getD_eq_getElem 0 hlt]
          exact List.getElem_mem hlt
        rw [← he, hmaxd]
        exact LabelFrequencyTable.le_maxCount t.data _ hmem
    · rw [hmaxd]
      rcases LabelFrequencyTable.maxCount_mem t.data with h0 | hm
      · rw [h0]; exact Nat.zero_le _
      · obtain ⟨i, hi, hval⟩ := List.mem_iff_getElem.mp hm
        have hgd := hb i hi
        rw [t.data.getD_eq_getElem 0 hi, hval] at hgd
        exact hgd
  refine ⟨?_, ?_, ?_, ?_⟩
  · rw [hgc, hgm, ← hmax]
    rcases hwit with ⟨hz, hc0⟩ | ⟨_, he⟩
    · have h00 := hb 0 hsize
      rw [hz, hc0]
      omega
    · exact he
  · intro l hl
    rw [hgc] at hl
    rw [hgm]
    by_cases hln : l < t.data.length
    · exact hleast l hln (by rw [hmax]; exact hl)
    · rcases hwit with ⟨hz, _⟩ | ⟨hlt, _⟩
      · rw [hz]; exact Nat.zero_le l
      · omega
  · exact ⟨t.data.length, by
      rw [LabelFrequencyTable.mflStep_iterate t.data hlen t.data.length (Nat.le_refl _)]
      exact Nat.lt_irrefl _⟩
  · have hw : LabelFrequencyTable.mflWrapped t.data
        = ((LabelFrequencyTable.mflStep t.data)^[t.data.length] (0, 0, 0)).2.1 := rfl
    rw [hw, LabelFrequencyTable.mflStep_iterate t.data hlen t.data.length (Nat.le_refl _)]
    rfl

/-- C9 witness: the amended theorem applied to the table built from the
labels 0, 1, 1. -/
theorem getMostFrequentLabel_lowest_max_witness :
    0 < (LabelFrequencyTable.ofLabels [0, 1, 1]).size
    ∧ (LabelFrequencyTable.ofLabels [0, 1, 1]).size ≤ 255
    ∧ ((LabelFrequencyTable.ofLabels [0, 1, 1]).getCount
          (LabelFrequencyTable.ofLabels [0, 1, 1]).getMostFrequentLabel
        = (LabelFrequencyTable.ofLabels [0, 1, 1]).maxCount
      ∧ (∀ l, (LabelFrequencyTable.ofLabels [0, 1, 1]).getCount l
            = (LabelFrequencyTable.ofLabels [0, 1, 1]).maxCount
          → (LabelFrequencyTable.ofLabels [0, 1, 1]).getMostFrequentLabel ≤ l)
      ∧ LabelFrequencyTable.mflExits (LabelFrequencyTable.ofLabels [0, 1, 1]).data
      ∧ LabelFrequencyTable.mflWrapped (LabelFrequencyTable.ofLabels [0, 1, 1]).data
        = (LabelFrequencyTable.ofLabels [0, 1, 1]).getMostFrequentLabel) :=
  ⟨by decide, by decide, getMostFrequentLabel_lowest_max _ (by decide) (by decide)⟩


/-- Invariant of the node arena: every non-leaf node has both child ids
non-zero. -/
def nonLeafChildrenNonZero (s : TreeState) : Prop :=
  ∀ nodeID, nodeID < s.nodes.length → (getNode s nodeID).isLeafNode = false →
    (getNode s nodeID).leftChild ≠ 0 ∧ (getNode s nodeID).rightChild ≠ 0

/-- C1: evaluation of the Gini helper at concrete tables.  The source
(datatools.h, line 99) divides the sum of squared counts by the total
`T` once, not by `T²`: on the table with counts (2) — total 2 — it
returns 1 − 4/2 = −1, where the claimed formula 1 − (Σ cᵢ²)/T² gives 0;
on counts (1,1) it returns 1 − 2/2 = 0, where the claimed formula gives
1/2.  A Gini impurity is never negative, so the claim describes the
intended, documented behaviour and the code slip drops one factor of T. -/
theorem giniImpurity_eval :
    (LabelFrequencyTable.ofLabels [0, 0]).giniImpurity = -1
    ∧ (LabelFrequencyTable.ofLabels [0, 1]).giniImpurity = 0 := by
  have h1 : LabelFrequencyTable.ofLabels [0, 0] = ⟨[2], 2⟩ := by decide
  have h2 : LabelFrequencyTable.ofLabels [0, 1] = ⟨[1, 1], 2⟩ := by decide
  rw [h1, h2]
  constructor <;> norm_num [LabelFrequencyTable.giniImpurity]

/-- C7: for every decision-tree classifier and every input batch,
`classify` produces exactly the per-point lowest-index argmax of the
vote table that `classifyAndVote` computes for that batch starting from
a zeroed table (both entry points reject exactly the same malformed
inputs); in particular the two entry points agree on every single-point
input. -/
theorem classify_eq_argmax_of_classifyAndVote (c : DecisionTreeClassifier) (points : List ℚ) :
    DecisionTreeClassifier.classify c points
      = (DecisionTreeClassifier.classifyAndVote c points
          (VoteTable.zero (points.length / c.featureCount) c.classCount)).map
        fun voteCounts => (List.range (points.length / c.featureCount)).map
          fun p => voteCounts.getColumnOfRowMaximum p := by
  unfold DecisionTreeClassifier.classify DecisionTreeClassifier.classifyAndVote
  by_cases h : points.length % c.featureCount ≠ 0
  · simp only [if_pos h]
    rfl
  · simp only [if_neg h]

/-- C8: both `classify` entry points validate, at entry, that the input
length is divisible by the feature count, and reject violations with a
`ClientError` before the vote table is allocated, before any tree is
pulled from the stream and before the dispatch to the single- or
multi-threaded voting path (thread creation itself is outside this
embedding; both paths live behind the same check, so nothing of the
batch is processed and no partial state exists when the error is
raised).  For divisible inputs, the point count is derived as
length / featureCount: every label list either entry point can return
has exactly that length. -/
theorem classify_rejects_indivisible_input (e : EnsembleClassifier)
    (c : DecisionTreeClassifier) (points : List ℚ) :
    (points.length % e.streamFeatureCount ≠ 0 →
      EnsembleClassifier.classify e points
        = Except.error (BalsaError.clientError "Malformed dataset."))
    ∧ (points.length % c.featureCount ≠ 0 →
      DecisionTreeClassifier.classify c points
        = Except.error (BalsaError.clientError "Malformed dataset."))
    ∧ (points.length % e.streamFeatureCount = 0 →
      ∀ labels, EnsembleClassifier.classify e points = Except.ok labels →
        labels.length = points.length / e.streamFeatureCount)
    ∧ (points.length % c.featureCount = 0 →
      ∀ labels, DecisionTreeClassifier.classify c points = Except.ok labels →
        labels.length = points.length / c.featureCount) := by
  refine ⟨?_, ?_, ?_, ?_⟩
  · intro h
    unfold EnsembleClassifier.classify
    rw [if_pos h]
  · intro h
    unfold DecisionTreeClassifier.classify
    rw [if_pos h]
  · intro h labels hok
    unfold EnsembleClassifier.classify at hok
    rw [if_neg (fun hne => hne h)] at hok
    dsimp only at hok
    rcases hv : EnsembleClassifier.classifyAndVoteSingleThreaded e points
        (VoteTable.zero (points.length / e.streamFeatureCount) e.streamClassCount) with err | vc
    · rw [hv] at hok
      simp [Except.map] at hok
    · rw [hv] at hok
      simp only [Except.map, Except.ok.injEq] at hok
      rw [← hok]
      simp
  · intro h labels hok
    unfold DecisionTreeClassifier.classify at hok
    rw [if_neg (fun hne => hne h)] at hok
    dsimp only at hok
    rcases hv : DecisionTreeClassifier.classifyAndVote c points
        (VoteTable.zero (points.length / c.featureCount) c.classCount) with err | vc
    · rw [hv] at hok
      simp [Except.map] at hok
    · rw [hv] at hok
      simp only [Except.map, Except.ok.injEq] at hok
      rw [← hok]
      simp

/-- C8 witness: a 3-entry batch against feature count 2 is rejected by
both entry points; a 4-entry batch yields 2 = 4 / 2 labels. -/
theorem classify_rejects_indivisible_input_witness :
    (EnsembleClassifier.classify ⟨[], 2, 2, [1, 1]⟩ [0, 0, 0]
      = Except.error (BalsaError.clientError "Malformed dataset."))
    ∧ (DecisionTreeClassifier.classify ⟨2, 2, [0], [0], [0], [0], [0]⟩ [0, 0, 0]
      = Except.error (BalsaError.clientError "Malformed dataset."))
    ∧ (([0, 0] : List Nat).length = ([0, 0, 0, 0] : List ℚ).length / 2) := by
  have h1 := (classify_rejects_indivisible_input ⟨[], 2, 2, [1, 1]⟩
    ⟨2, 2, [0], [0], [0], [0], [0]⟩ [0, 0, 0]).1 (by decide)
  have h2 := (classify_rejects_indivisible_input ⟨[], 2, 2, [1, 1]⟩
    ⟨2, 2, [0], [0], [0], [0], [0]⟩ [0, 0, 0]).2.1 (by decide)
  have heval : DecisionTreeClassifier.classify ⟨2, 2, [0], [0], [0], [0], [0]⟩
      ([0, 0, 0, 0] : List ℚ) = Except.ok [0, 0] := by rfl
  have h3 := (classify_rejects_indivisible_input ⟨[], 2, 2, [1, 1]⟩
    ⟨2, 2, [0], [0], [0], [0], [0]⟩ [0, 0, 0, 0]).2.2.2 (by decide) [0, 0] heval
  exact ⟨h1, h2, by rw [h3]⟩

/-- C3 counterexample: the constructor sorts each single-feature index
with `std::sort` (indexeddecisiontree.h line 80) under a comparator
that inspects feature values only, and `std::sort` is not stable: on
the training set with one feature, two points both holding value 5 and
labels 0 and 1, the reversed entry order is a conforming sort outcome
(a permutation of the raw entries, sorted by value) in which the
equal-valued entries do NOT keep their original point order.  The
claimed stable-tie property is therefore not guaranteed by the code. -/
theorem featureIndex_ties_not_stable :
    isValidSortResult (rawEntries [5, 5] [0, 1] 1 2 0)
      [⟨5, 1, 1⟩, ⟨5, 0, 0⟩]
    ∧ ¬ hasStableTies [⟨5, 1, 1⟩, ⟨5, 0, 0⟩] := by
  have hraw : rawEntries [5, 5] [0, 1] 1 2 0 = [⟨5, 0, 0⟩, ⟨5, 1, 1⟩] := by
    simp [rawEntries, featureOf, List.range_succ]
  refine ⟨⟨?_, ?_⟩, ?_⟩
  · rw [hraw]
    exact List.Perm.swap _ _ _
  · refine List.Pairwise.cons ?_ (List.Pairwise.cons ?_ List.Pairwise.nil)
    · intro b hb
      rw [List.mem_singleton] at hb
      subst hb
      show (5 : ℚ) ≤ (5 : ℚ)
      norm_num
    · intro b hb
      cases hb
  · intro hst
    rcases List.pairwise_cons.mp hst with ⟨hrel, _⟩
    exact absurd (hrel ⟨5, 0, 0⟩ (List.mem_singleton.mpr rfl) rfl) (by decide)

/-- C3 (amended): the single-feature index built at construction is a
permutation of the triples (featureValue, pointID, label) of all P
points, sorted by featureValue; the relative order of entries with
equal value is whatever the unstable `std::sort` produced (the
executable model commits to one conforming outcome).  The partition
applied when a split is made (`std::stable_partition` inside
`splitNode`, modelled by `stablePartition` and applied to every node
slice by `partitionFeatureIndex`) does preserve the index order inside
each side: both sides are sublists of the partitioned slice, and any
sortedness by feature value carries over to both sides. -/
theorem featureIndex_sorted_partition_preserves_order
    (dataPoints : List ℚ) (labels : List Nat) (featureCount pointCount f : Nat)
    (p : FeatureIndexEntry → Bool) (l : List FeatureIndexEntry)
    (hs : l.Pairwise entryLE) :
    isValidSortResult (rawEntries dataPoints labels featureCount pointCount f)
      (buildSingleFeatureIndex dataPoints labels featureCount pointCount f)
    ∧ (stablePartition p l).1.Sublist l
    ∧ (stablePartition p l).2.Sublist l
    ∧ (stablePartition p l).1.Pairwise entryLE
    ∧ (stablePartition p l).2.Pairwise entryLE := by
  refine ⟨⟨?_, ?_⟩, ?_, ?_, ?_, ?_⟩
  · exact List.perm_insertionSort entryLE _
  · exact List.sorted_insertionSort entryLE _
  · exact List.filter_sublist l
  · exact List.filter_sublist l
  · exact hs.filter p
  · exact hs.filter _

/-- C3 witness: the amended theorem applied to a concrete two-point
training set and a concrete sorted slice. -/
theorem featureIndex_sorted_partition_preserves_order_witness :
    isValidSortResult (rawEntries [1, 2] [0, 1] 1 2 0)
      (buildSingleFeatureIndex [1, 2] [0, 1] 1 2 0)
    ∧ (stablePartition (fun e : FeatureIndexEntry => decide (e.featureValue < 2))
        ([⟨1, 0, 0⟩, ⟨2, 1, 1⟩] : List FeatureIndexEntry)).1.Sublist
        ([⟨1, 0, 0⟩, ⟨2, 1, 1⟩] : List FeatureIndexEntry)
    ∧ (stablePartition (fun e : FeatureIndexEntry => decide (e.featureValue < 2))
        ([⟨1, 0, 0⟩, ⟨2, 1, 1⟩] : List FeatureIndexEntry)).2.Sublist
        ([⟨1, 0, 0⟩, ⟨2, 1, 1⟩] : List FeatureIndexEntry)
    ∧ (stablePartition (fun e : FeatureIndexEntry => decide (e.featureValue < 2))
        ([⟨1, 0, 0⟩, ⟨2, 1, 1⟩] : List FeatureIndexEntry)).1.Pairwise entryLE
    ∧ (stablePartition (fun e : FeatureIndexEntry => decide (e.featureValue < 2))
        ([⟨1, 0, 0⟩, ⟨2, 1, 1⟩] : List FeatureIndexEntry)).2.Pairwise entryLE :=
  featureIndex_sorted_partition_preserves_order [1, 2] [0, 1] 1 2 0
    (fun e : FeatureIndexEntry => decide (e.featureValue < 2))
    ([⟨1, 0, 0⟩, ⟨2, 1, 1⟩] : List FeatureIndexEntry)
    (List.Pairwise.cons
      (fun b hb => by
        rw [List.mem_singleton] at hb
        subst hb
        show (1 : ℚ) ≤ (2 : ℚ)
        norm_num)
      (List.Pairwise.cons (fun b hb => by cases hb) List.Pairwise.nil))

/-- The scan loop is the stable minimum-fold over the list of proposed
candidates: a later candidate replaces the best one only on a strictly
lower impurity. -/
theorem sweep_eq_foldl (fid : Nat) (l : List FeatureIndexEntry) :
    ∀ cbv L R best, sweep fid l cbv L R best
      = (proposedCandidates fid l cbv L R).foldl
          (fun b c => if c.impurity < b.impurity then c else b) best := by
  induction l with
  | nil => intros; rfl
  | cons e rest ih =>
    intro cbv L R best
    by_cases h : cbv < e.featureValue
    · simp only [sweep, proposedCandidates, if_pos h, List.singleton_append, List.foldl_cons]
      exact ih _ _ _ _
    · simp only [sweep, proposedCandidates, if_neg h, List.nil_append]
      exact ih _ _ _ _

theorem leftTableAt_cons (L : LabelFrequencyTable) (e : FeatureIndexEntry)
    (rest : List FeatureIndexEntry) (j : Nat) :
    leftTableAt L (e :: rest) (j + 1) = leftTableAt (L.increment e.label) rest j := by
  simp [leftTableAt]

theorem rightTableAt_cons (R : LabelFrequencyTable) (e : FeatureIndexEntry)
    (rest : List FeatureIndexEntry) (j : Nat) :
    rightTableAt R (e :: rest) (j + 1) = rightTableAt (R.decrement e.label) rest j := by
  simp [rightTableAt]

/-- Every proposed candidate stems from a position `j` of the slice at
which the feature value strictly exceeds the previous block value, and
its tables are exactly the left and right tables of the first `j`
entries — the state before the boundary entry is counted. -/
theorem proposedCandidates_mem (fid : Nat) :
    ∀ (l : List FeatureIndexEntry) (cbv : ℚ) (L R : LabelFrequencyTable)
      (c : SplitCandidate), c ∈ proposedCandidates fid l cbv L R →
      ∃ j, j < l.length
        ∧ (if j = 0 then cbv else (l.getD (j - 1) default).featureValue)
            < (l.getD j default).featureValue
        ∧ c = SplitCandidate.make fid (l.getD j default).featureValue
            (leftTableAt L l j) (rightTableAt R l j) := by
  intro l
  induction l with
  | nil =>
    intro cbv L R c hc
    simp only [proposedCandidates] at hc
    cases hc
  | cons e rest ih =>
    intro cbv L R c hc
    simp only [proposedCandidates] at hc
    rcases List.mem_append.mp hc with h | h
    · by_cases hlt : cbv < e.featureValue
      · rw [if_pos hlt] at h
        rw [List.mem_singleton] at h
        subst h
        refine ⟨0, Nat.succ_pos _, ?_, ?_⟩
        · simpa using hlt
        · simp [leftTableAt, rightTableAt]
      · rw [if_neg hlt] at h
        cases h
    · obtain ⟨j, hj, hcbv, hceq⟩ := ih e.featureValue (L.increment e.label)
        (R.decrement e.label) c h
      refine ⟨j + 1, Nat.succ_lt_succ hj, ?_, ?_⟩
      · simp only [Nat.succ_ne_zero, if_false, Nat.add_sub_cancel, List.getD_cons_succ]
        cases j with
        | zero => simpa using hcbv
        | succ j' => simpa using hcbv
      · rw [hceq, List.getD_cons_succ, leftTableAt_cons, rightTableAt_cons]

/-- The number of proposed candidates is exactly the number of strict
increases of the value sequence. -/
theorem proposedCandidates_length (fid : Nat) :
    ∀ (l : List FeatureIndexEntry) (cbv : ℚ) (L R : LabelFrequencyTable),
      (proposedCandidates fid l cbv L R).length
        = strictIncreases cbv (l.map fun e => e.featureValue) := by
  intro l
  induction l with
  | nil => intros; rfl
  | cons e rest ih =>
    intro cbv L R
    simp only [proposedCandidates, List.map_cons, strictIncreases, List.length_append]
    by_cases h : cbv < e.featureValue
    · rw [if_pos h, if_pos h]
      simp [ih]
    · rw [if_neg h, if_neg h]
      simp [ih]

/-- The per-feature scan is the stable minimum-fold of the proposed
candidates over the incoming best split. -/
theorem findBestSplitForFeature_eq_foldl
    (nd : Node) (fi : List FeatureIndexEntry) (fid : Nat)
    (minimalBestSplit : SplitCandidate) :
    findBestSplitForFeature nd fi fid minimalBestSplit
      = (scanCandidates nd fi fid).foldl
          (fun b c => if c.impurity < b.impurity then c else b) minimalBestSplit := by
  unfold findBestSplitForFeature scanCandidates
  rcases nodeSlice nd fi with _ | ⟨e, rest⟩
  · rfl
  · exact sweep_eq_foldl fid (e :: rest) e.featureValue _ _ minimalBestSplit

/-- Every candidate of a node's scan sits at a position `j ≥ 1` of the
slice where the value strictly increases, and carries the tables of the
first `j` entries. -/
theorem scanCandidates_shape (nd : Node) (fi : List FeatureIndexEntry) (fid : Nat) :
    ∀ c ∈ scanCandidates nd fi fid,
      ∃ j, 1 ≤ j ∧ j < (nodeSlice nd fi).length
        ∧ ((nodeSlice nd fi).getD (j - 1) default).featureValue
            < ((nodeSlice nd fi).getD j default).featureValue
        ∧ c = SplitCandidate.make fid ((nodeSlice nd fi).getD j default).featureValue
            (leftTableAt (LabelFrequencyTable.ofSize nd.labelCounts.size) (nodeSlice nd fi) j)
            (rightTableAt nd.labelCounts (nodeSlice nd fi) j) := by
  intro c hc
  unfold scanCandidates at hc
  rcases hsl : nodeSlice nd fi with _ | ⟨e, rest⟩
  · rw [hsl] at hc
    cases hc
  · rw [hsl] at hc
    obtain ⟨j, hj, hcbv, hceq⟩ := proposedCandidates_mem fid (e :: rest) e.featureValue
      _ _ c hc
    have hj1 : 1 ≤ j := by
      rcases Nat.eq_zero_or_pos j with h0 | h1
      · subst h0
        simp only [if_pos rfl, List.getD_cons_zero] at hcbv
        exact absurd hcbv (lt_irrefl _)
      · exact h1
    refine ⟨j, hj1, hj, ?_, hceq⟩
    rw [if_neg (by omega : ¬ j = 0)] at hcbv
    exact hcbv

/-- The number of candidates of a node's scan is the number of strict
increases of the slice's value sequence. -/
theorem scanCandidates_count (nd : Node) (fi : List FeatureIndexEntry) (fid : Nat) :
    (scanCandidates nd fi fid).length
      = strictIncreases ((nodeSlice nd fi).headD default).featureValue
          ((nodeSlice nd fi).map fun e => e.featureValue) := by
  unfold scanCandidates
  rcases nodeSlice nd fi with _ | ⟨e, rest⟩
  · rfl
  · simp only [List.headD_cons]
    exact proposedCandidates_length fid (e :: rest) e.featureValue _ _

/-- C4: during the per-feature scan of a node's sorted slice, (1) the
result is the stable minimum-fold of the proposed candidates over the
incoming best split — a later candidate whose impurity exactly equals
the current best is discarded, retaining the earlier one; (2) every
proposed candidate sits at a position `j ≥ 1` whose feature value
strictly exceeds the value at `j − 1`, and carries the left and right
label-frequency tables of the first `j` entries, i.e. the tables as
they stand before the boundary point is counted (the scan afterwards
increments the left and decrements the right table with the visited
point's label, which is what `leftTableAt`/`rightTableAt` at `j + 1`
express); (3) the number of proposed candidates equals the number of
strict increases of the slice's value sequence — candidates appear
exactly at the strict increases. -/
theorem findBestSplitForFeature_scan_characterization
    (nd : Node) (fi : List FeatureIndexEntry) (fid : Nat)
    (minimalBestSplit : SplitCandidate) :
    findBestSplitForFeature nd fi fid minimalBestSplit
      = (scanCandidates nd fi fid).foldl
          (fun b c => if c.impurity < b.impurity then c else b) minimalBestSplit
    ∧ (∀ c ∈ scanCandidates nd fi fid,
        ∃ j, 1 ≤ j ∧ j < (nodeSlice nd fi).length
          ∧ ((nodeSlice nd fi).getD (j - 1) default).featureValue
              < ((nodeSlice nd fi).getD j default).featureValue
          ∧ c = SplitCandidate.make fid ((nodeSlice nd fi).getD j default).featureValue
              (leftTableAt (LabelFrequencyTable.ofSize nd.labelCounts.size) (nodeSlice nd fi) j)
              (rightTableAt nd.labelCounts (nodeSlice nd fi) j))
    ∧ (scanCandidates nd fi fid).length
      = strictIncreases ((nodeSlice nd fi).headD default).featureValue
          ((nodeSlice nd fi).map fun e => e.featureValue) :=
  ⟨findBestSplitForFeature_eq_foldl nd fi fid minimalBestSplit,
   scanCandidates_shape nd fi fid,
   scanCandidates_count nd fi fid⟩

/-! ### Facts about `splitNode` -/

/-- The node arena after a split: the parent receives the split data and
the child links (left child id = old arena size), and the two children
are appended. -/
theorem splitNode_nodes (s : TreeState) (nodeID : Nat) (c : SplitCandidate) :
    (splitNode s nodeID c).nodes
      = s.nodes.set nodeID { getNode s nodeID with
            splitFeature := c.splitFeature, splitValue := c.splitValue,
            leftChild := s.nodes.length, rightChild := s.nodes.length + 1 }
        ++ [Node.make c.leftCounts (getNode s nodeID).indexOffset
              ((getNode s nodeID).distanceToRoot + 1),
            Node.make c.rightCounts ((getNode s nodeID).indexOffset + c.leftCounts.total)
              ((getNode s nodeID).distanceToRoot + 1)] := rfl

/-- Growability only reads the arena and the parameters, never the
queue. -/
theorem isGrowableNode_queue_irrelevant (s : TreeState) (q : List Nat) (i : Nat) :
    isGrowableNode { s with growableLeaves := q } i = isGrowableNode s i := rfl

theorem splitNode_length (s : TreeState) (nodeID : Nat) (c : SplitCandidate) :
    (splitNode s nodeID c).nodes.length = s.nodes.length + 2 := by
  rw [splitNode_nodes]
  simp [List.length_set]

theorem splitNode_getNode_parent (s : TreeState) (nodeID : Nat) (c : SplitCandidate)
    (hlt : nodeID < s.nodes.length) :
    getNode (splitNode s nodeID c) nodeID
      = { getNode s nodeID with
          splitFeature := c.splitFeature, splitValue := c.splitValue,
          leftChild := s.nodes.length, rightChild := s.nodes.length + 1 } := by
  rw [getNode, splitNode_nodes,
    List.getD_append _ _ _ _ (by simpa [List.length_set] using hlt),
    List.getD_eq_getElem _ _ (by simpa [List.length_set] using hlt),
    List.getElem_set_self]

theorem splitNode_getNode_left (s : TreeState) (nodeID : Nat) (c : SplitCandidate) :
    getNode (splitNode s nodeID c) s.nodes.length
      = Node.make c.leftCounts (getNode s nodeID).indexOffset
          ((getNode s nodeID).distanceToRoot + 1) := by
  rw [getNode, splitNode_nodes,
    List.getD_append_right _ _ _ _ (by simp [List.length_set])]
  simp [List.length_set]

theorem splitNode_getNode_right (s : TreeState) (nodeID : Nat) (c : SplitCandidate) :
    getNode (splitNode s nodeID c) (s.nodes.length + 1)
      = Node.make c.rightCounts ((getNode s nodeID).indexOffset + c.leftCounts.total)
          ((getNode s nodeID).distanceToRoot + 1) := by
  rw [getNode, splitNode_nodes,
    List.getD_append_right _ _ _ _ (by simp [List.length_set])]
  simp [List.length_set]

theorem splitNode_getNode_other (s : TreeState) (nodeID : Nat) (c : SplitCandidate)
    (i : Nat) (hi : i < s.nodes.length) (hne : i ≠ nodeID) :
    getNode (splitNode s nodeID c) i = getNode s i := by
  rw [getNode, splitNode_nodes,
    List.getD_append _ _ _ _ (by simpa [List.length_set] using hi),
    List.getD_eq_getElem _ _ (by simpa [List.length_set] using hi),
    List.getElem_set_ne (Ne.symm hne)]
  exact (List.getD_eq_getElem _ _ hi).symm

/-- The queue after a split: the old queue with the left child and then
the right child appended, each only if growable in the new arena. -/
theorem splitNode_growableLeaves_raw (s : TreeState) (nodeID : Nat) (c : SplitCandidate) :
    (splitNode s nodeID c).growableLeaves
      = (if isGrowableNode (splitNode s nodeID c) (s.nodes.length + 1)
         then (if isGrowableNode (splitNode s nodeID c) s.nodes.length
               then s.growableLeaves ++ [s.nodes.length] else s.growableLeaves)
              ++ [s.nodes.length + 1]
         else (if isGrowableNode (splitNode s nodeID c) s.nodes.length
               then s.growableLeaves ++ [s.nodes.length] else s.growableLeaves)) := rfl

/-- The queue after a split: the old queue with the left child and then
the right child appended, each only if growable in the new arena. -/
theorem splitNode_growableLeaves (s : TreeState) (nodeID : Nat) (c : SplitCandidate) :
    (splitNode s nodeID c).growableLeaves
      = s.growableLeaves
        ++ (if isGrowableNode (splitNode s nodeID c) s.nodes.length
            then [s.nodes.length] else [])
        ++ (if isGrowableNode (splitNode s nodeID c) (s.nodes.length + 1)
            then [s.nodes.length + 1] else []) := by
  rw [splitNode_growableLeaves_raw]
  by_cases h1 : isGrowableNode (splitNode s nodeID c) s.nodes.length
    <;> by_cases h2 : isGrowableNode (splitNode s nodeID c) (s.nodes.length + 1)
    <;> simp [h1, h2]

/-- C5: in the node arena, splitting the leaf at id P while N nodes
exist (P < N) appends the children at ids N and N + 1, both strictly
greater than P and stored in the parent as its (non-zero, since the
root occupies slot 0 and hence N ≥ 1) child links; the left child
inherits the parent's index offset and the right child's offset is the
parent's offset plus the left side's point count; both children are
fresh leaves; each child is enqueued exactly if it passes the
growability test; and the invariant that every non-leaf node has both
child ids non-zero is preserved. -/
theorem splitNode_invariants (s : TreeState) (nodeID : Nat) (c : SplitCandidate)
    (hlt : nodeID < s.nodes.length)
    (hinv : nonLeafChildrenNonZero s) :
    (splitNode s nodeID c).nodes.length = s.nodes.length + 2
    ∧ (getNode (splitNode s nodeID c) nodeID).leftChild = s.nodes.length
    ∧ (getNode (splitNode s nodeID c) nodeID).rightChild = s.nodes.length + 1
    ∧ nodeID < s.nodes.length
    ∧ (getNode (splitNode s nodeID c) s.nodes.length).indexOffset
        = (getNode s nodeID).indexOffset
    ∧ (getNode (splitNode s nodeID c) (s.nodes.length + 1)).indexOffset
        = (getNode s nodeID).indexOffset + c.leftCounts.total
    ∧ (getNode (splitNode s nodeID c) s.nodes.length).isLeafNode = true
    ∧ (getNode (splitNode s nodeID c) (s.nodes.length + 1)).isLeafNode = true
    ∧ (splitNode s nodeID c).growableLeaves
        = s.growableLeaves
          ++ (if isGrowableNode (splitNode s nodeID c) s.nodes.length
              then [s.nodes.length] else [])
          ++ (if isGrowableNode (splitNode s nodeID c) (s.nodes.length + 1)
              then [s.nodes.length + 1] else [])
    ∧ nonLeafChildrenNonZero (splitNode s nodeID c) := by
  refine ⟨splitNode_length s nodeID c, ?_, ?_, hlt, ?_, ?_, ?_, ?_,
    splitNode_growableLeaves s nodeID c, ?_⟩
  · rw [splitNode_getNode_parent s nodeID c hlt]
  · rw [splitNode_getNode_parent s nodeID c hlt]
  · rw [splitNode_getNode_left]
    rfl
  · rw [splitNode_getNode_right]
    rfl
  · rw [splitNode_getNode_left]
    rfl
  · rw [splitNode_getNode_right]
    rfl
  · intro i hi hileaf
    rw [splitNode_length] at hi
    by_cases hiN : i = s.nodes.length
    · subst hiN
      rw [splitNode_getNode_left] at hileaf
      cases hileaf
    · by_cases hiN1 : i = s.nodes.length + 1
      · subst hiN1
        rw [splitNode_getNode_right] at hileaf
        cases hileaf
      · have hi' : i < s.nodes.length := by omega
        by_cases hip : i = nodeID
        · subst hip
          rw [splitNode_getNode_parent s i c hi']
          refine ⟨?_, ?_⟩
          · show s.nodes.length ≠ 0
            omega
          · show s.nodes.length + 1 ≠ 0
            omega
        · rw [splitNode_getNode_other s nodeID c i hi' hip] at hileaf ⊢
          exact hinv i hi' hileaf

/-- C5 witness: the invariants applied to a concrete single-root state
and a concrete candidate. -/
theorem splitNode_invariants_witness :
    ((splitNode ⟨[0, 1], 2, 1, 1, 4294967295, 0, [0],
        [Node.make (LabelFrequencyTable.ofLabels [0, 1]) 0 0],
        [[⟨0, 0, 0⟩, ⟨1, 1, 1⟩]], 0⟩ 0
        ⟨0, 1, LabelFrequencyTable.ofLabels [0], LabelFrequencyTable.ofLabels [1], 0⟩).nodes.length
      = 1 + 2)
    ∧ nonLeafChildrenNonZero (splitNode ⟨[0, 1], 2, 1, 1, 4294967295, 0, [0],
        [Node.make (LabelFrequencyTable.ofLabels [0, 1]) 0 0],
        [[⟨0, 0, 0⟩, ⟨1, 1, 1⟩]], 0⟩ 0
        ⟨0, 1, LabelFrequencyTable.ofLabels [0], LabelFrequencyTable.ofLabels [1], 0⟩) := by
  have h := splitNode_invariants ⟨[0, 1], 2, 1, 1, 4294967295, 0, [0],
      [Node.make (LabelFrequencyTable.ofLabels [0, 1]) 0 0],
      [[⟨0, 0, 0⟩, ⟨1, 1, 1⟩]], 0⟩ 0
      ⟨0, 1, LabelFrequencyTable.ofLabels [0], LabelFrequencyTable.ofLabels [1], 0⟩
      (by decide)
      (by
        intro i hi hleaf
        have hi0 : i = 0 := by simpa using hi
        subst hi0
        exact absurd hleaf (by decide))
  exact ⟨h.1, h.2.2.2.2.2.2.2.2.2⟩

/-! ### Facts about candidate validity and feature selection -/

/-- The Gini helper never exceeds 1, whatever the table holds: it is
one minus a quotient of nonnegative numbers (and one exactly when the
total is zero, since division by zero yields zero). -/
theorem giniImpurity_le_one (t : LabelFrequencyTable) : t.giniImpurity ≤ 1 := by
  unfold LabelFrequencyTable.giniImpurity
  have hs : 0 ≤ (t.data.map fun c => (c : ℚ) * (c : ℚ)).sum := by
    apply List.sum_nonneg
    intro x hx
    rw [List.mem_map] at hx
    obtain ⟨c, _, rfl⟩ := hx
    exact mul_self_nonneg (c : ℚ)
  rcases Nat.eq_zero_or_pos t.total with h0 | hpos
  · rw [h0]
    simp
  · have hd : 0 ≤ (t.data.map fun c => (c : ℚ) * (c : ℚ)).sum / (t.total : ℚ) :=
      div_nonneg hs (by positivity)
    linarith

/-- Every candidate the scan builds is valid: its impurity is a
weighted mean of two Gini values that are at most 1 (or zero when both
tables are empty), hence at most 1. -/
theorem splitCandidate_make_isValid (f : Nat) (v : ℚ) (L R : LabelFrequencyTable) :
    (SplitCandidate.make f v L R).isValid = true := by
  unfold SplitCandidate.isValid SplitCandidate.make
  rw [decide_eq_true_iff]
  show (L.giniImpurity * (L.total : ℚ) + R.giniImpurity * (R.total : ℚ))
      / ((L.total : ℚ) + (R.total : ℚ)) ≤ 1
  rcases eq_or_lt_of_le (add_nonneg (Nat.cast_nonneg L.total) (Nat.cast_nonneg R.total) :
      (0 : ℚ) ≤ (L.total : ℚ) + (R.total : ℚ)) with h0 | hpos
  · rw [← h0, div_zero]
    norm_num
  · rw [div_le_one hpos]
    have h1 : L.giniImpurity * (L.total : ℚ) ≤ (L.total : ℚ) := by
      have := giniImpurity_le_one L
      nlinarith [Nat.cast_nonneg (α := ℚ) L.total]
    have h2 : R.giniImpurity * (R.total : ℚ) ≤ (R.total : ℚ) := by
      have := giniImpurity_le_one R
      nlinarith [Nat.cast_nonneg (α := ℚ) R.total]
    linarith

/-- The scan either keeps the incoming candidate untouched or returns a
valid candidate. -/
theorem sweep_valid_or_id (fid : Nat) (l : List FeatureIndexEntry) :
    ∀ (cbv : ℚ) (L R : LabelFrequencyTable) (best : SplitCandidate),
      sweep fid l cbv L R best = best ∨ (sweep fid l cbv L R best).isValid = true := by
  induction l with
  | nil => intros; exact Or.inl rfl
  | cons e rest ih =>
    intro cbv L R best
    simp only [sweep]
    by_cases h : cbv < e.featureValue
    · rw [if_pos h]
      by_cases h2 : (SplitCandidate.make fid e.featureValue L R).impurity < best.impurity
      · rw [if_pos h2]
        rcases ih e.featureValue (L.increment e.label) (R.decrement e.label)
            (SplitCandidate.make fid e.featureValue L R) with heq | hval
        · rw [heq]
          exact Or.inr (splitCandidate_make_isValid _ _ _ _)
        · exact Or.inr hval
      · rw [if_neg h2]
        exact ih _ _ _ best
    · rw [if_neg h]
      exact ih _ _ _ best

/-- `findBestSplitForFeature` either returns the supplied minimal best
split unchanged or a valid candidate. -/
theorem findBestSplitForFeature_valid_or_id (nd : Node) (fi : List FeatureIndexEntry)
    (fid : Nat) (minimalBestSplit : SplitCandidate) :
    findBestSplitForFeature nd fi fid minimalBestSplit = minimalBestSplit
    ∨ (findBestSplitForFeature nd fi fid minimalBestSplit).isValid = true := by
  unfold findBestSplitForFeature
  rcases nodeSlice nd fi with _ | ⟨e, rest⟩
  · exact Or.inl rfl
  · exact sweep_valid_or_id fid (e :: rest) e.featureValue _ _ minimalBestSplit

/-- The number of skipped features after the selection loop: with
`toScan ≤ featuresLeft` (maintained because a flip with as many picks
as items left always fires), exactly `featuresLeft − toScan` features
are appended to the skipped list, i.e. exactly `toScan` features are
scanned. -/
theorem scanFeatures_skipped_length (flip : Nat → Nat → Nat → Bool) (nd : Node)
    (fidx : List (List FeatureIndexEntry))
    (hflip0 : ∀ t n, 1 ≤ n → flip t 0 n = false)
    (hflipAll : ∀ t n, 1 ≤ n → flip t n n = true) :
    ∀ (fs : List Nat) (t toScan : Nat) (skipped : List Nat) (best : SplitCandidate),
      toScan ≤ fs.length →
      (scanFeatures flip nd fidx t toScan skipped best fs).2.1.length
        = skipped.length + (fs.length - toScan) := by
  intro fs
  induction fs with
  | nil =>
    intro t toScan sk best h
    simp [scanFeatures]
  | cons f fs ih =>
    intro t toScan sk best h
    simp only [scanFeatures]
    by_cases hc : flip t toScan (fs.length + 1)
    · rw [if_pos hc]
      cases toScan with
      | zero =>
        rw [hflip0 t (fs.length + 1) (by omega)] at hc
        cases hc
      | succ ts =>
        simp only [Nat.add_sub_cancel]
        rw [ih (t + 1) ts sk _ (by simpa using h)]
        simp only [List.length_cons]
        omega
    · rw [if_neg hc]
      have hts : toScan ≤ fs.length := by
        by_contra hgt
        have heq : toScan = fs.length + 1 := by
          simp only [List.length_cons] at h
          omega
        rw [heq, hflipAll t (fs.length + 1) (by omega)] at hc
        exact hc rfl
      rw [ih (t + 1) toScan (sk ++ [f]) best hts]
      simp only [List.length_append, List.length_cons, List.length_nil]
      omega

/-- The skipped list is emitted in ascending feature order. -/
theorem scanFeatures_skipped_sorted (flip : Nat → Nat → Nat → Bool) (nd : Node)
    (fidx : List (List FeatureIndexEntry)) :
    ∀ (fs : List Nat) (t toScan : Nat) (skipped : List Nat) (best : SplitCandidate),
      skipped.Pairwise (· < ·) → (∀ x ∈ skipped, ∀ y ∈ fs, x < y) →
      fs.Pairwise (· < ·) →
      (scanFeatures flip nd fidx t toScan skipped best fs).2.1.Pairwise (· < ·) := by
  intro fs
  induction fs with
  | nil =>
    intro t toScan sk best hsk _ _
    simpa [scanFeatures] using hsk
  | cons f fs ih =>
    intro t toScan sk best hsk hlt hfs
    rcases List.pairwise_cons.mp hfs with ⟨hf, hfs'⟩
    simp only [scanFeatures]
    by_cases hc : flip t toScan (fs.length + 1)
    · rw [if_pos hc]
      exact ih (t + 1) (toScan - 1) sk _ hsk
        (fun x hx y hy => hlt x hx y (List.mem_cons_of_mem f hy)) hfs'
    · rw [if_neg hc]
      refine ih (t + 1) toScan (sk ++ [f]) best ?_ ?_ hfs'
      · rw [List.pairwise_append]
        refine ⟨hsk, List.pairwise_singleton _ _, ?_⟩
        intro x hx y hy
        rw [List.mem_singleton] at hy
        rw [hy]
        exact hlt x hx f (List.mem_cons_self f fs)
      · intro x hx y hy
        rcases List.mem_append.mp hx with hx' | hx'
        · exact hlt x hx' y (List.mem_cons_of_mem f hy)
        · rw [List.mem_singleton] at hx'
          rw [hx']
          exact hf y hy

/-- The fallback pass over the skipped features: starting from an
invalid candidate, it returns the candidate of the first feature whose
scan produces a valid split, and the unchanged invalid candidate if
none does. -/
theorem fallbackScan_first_valid (nd : Node) (fidx : List (List FeatureIndexEntry)) :
    ∀ (fs : List Nat) (best : SplitCandidate), best.isValid = false →
      fallbackScan nd fidx best fs
        = (match fs.find?
              (fun f => (findBestSplitForFeature nd (fidx.getD f []) f best).isValid) with
          | some f => findBestSplitForFeature nd (fidx.getD f []) f best
          | none => best) := by
  intro fs
  induction fs with
  | nil => intros; rfl
  | cons f fs ih =>
    intro best hbest
    simp only [fallbackScan]
    by_cases hv : (findBestSplitForFeature nd (fidx.getD f []) f best).isValid
    · rw [if_pos hv, List.find?_cons_of_pos _ (by simpa using hv)]
    · rw [if_neg hv, List.find?_cons_of_neg _ (by simpa using hv)]
      have hbb : findBestSplitForFeature nd (fidx.getD f []) f best = best := by
        rcases findBestSplitForFeature_valid_or_id nd (fidx.getD f []) f best with h | h
        · exact h
        · rw [h] at hv
          exact absurd rfl hv
      rw [hbb]
      exact ih best hbest

/-- Zeta-reduced form of `findBestSplit`. -/
theorem findBestSplit_eq_ite (flip : Nat → Nat → Nat → Bool) (s : TreeState) (nodeID : Nat) :
    findBestSplit flip s nodeID
      = (if (scanFeatures flip (getNode s nodeID) s.featureIndex s.coinTime s.featuresToConsider
              [] SplitCandidate.invalid (List.range s.featureCount)).1.isValid
         then ((scanFeatures flip (getNode s nodeID) s.featureIndex s.coinTime
                  s.featuresToConsider [] SplitCandidate.invalid (List.range s.featureCount)).1,
               (scanFeatures flip (getNode s nodeID) s.featureIndex s.coinTime
                  s.featuresToConsider [] SplitCandidate.invalid (List.range s.featureCount)).2.2)
         else (fallbackScan (getNode s nodeID) s.featureIndex
                 (scanFeatures flip (getNode s nodeID) s.featureIndex s.coinTime
                    s.featuresToConsider [] SplitCandidate.invalid (List.range s.featureCount)).1
                 (scanFeatures flip (getNode s nodeID) s.featureIndex s.coinTime
                    s.featuresToConsider [] SplitCandidate.invalid (List.range s.featureCount)).2.1,
               (scanFeatures flip (getNode s nodeID) s.featureIndex s.coinTime
                  s.featuresToConsider [] SplitCandidate.invalid (List.range s.featureCount)).2.2)) :=
  rfl

/-- Zeta-reduced form of `growLeaf`. -/
theorem growLeaf_eq_ite (flip : Nat → Nat → Nat → Bool) (s : TreeState) (nodeID : Nat) :
    growLeaf flip s nodeID
      = (if (findBestSplit flip s nodeID).1.isValid
         then splitNode { s with coinTime := (findBestSplit flip s nodeID).2 } nodeID
                (findBestSplit flip s nodeID).1
         else { s with coinTime := (findBestSplit flip s nodeID).2 }) :=
  rfl

/-- C6: `findBestSplit` evaluates exactly K = featuresToConsider
features chosen without replacement by the weighted coin — the skipped
list collects exactly M − K features, so the selection pass uses up all
K credits (a flip with as many remaining picks as remaining items is
deterministically true, one with no remaining picks deterministically
false); the skipped list is in ascending featureID order; if the
selection pass produced a valid candidate (impurity at most 1) it is
returned; otherwise the skipped features are scanned in ascending
order and the candidate of the first feature yielding a valid split is
returned; if still none, the invalid candidate is returned and
`growLeaf` finalizes the leaf without splitting: the state is left
unchanged except for the advanced coin position. -/
theorem findBestSplit_selection (flip : Nat → Nat → Nat → Bool) (s : TreeState) (nodeID : Nat)
    (hflip0 : ∀ t n, 1 ≤ n → flip t 0 n = false)
    (hflipAll : ∀ t n, 1 ≤ n → flip t n n = true)
    (hK : s.featuresToConsider ≤ s.featureCount) :
    (scanFeatures flip (getNode s nodeID) s.featureIndex s.coinTime s.featuresToConsider []
        SplitCandidate.invalid (List.range s.featureCount)).2.1.length
      = s.featureCount - s.featuresToConsider
    ∧ (scanFeatures flip (getNode s nodeID) s.featureIndex s.coinTime s.featuresToConsider []
        SplitCandidate.invalid (List.range s.featureCount)).2.1.Pairwise (· < ·)
    ∧ ((scanFeatures flip (getNode s nodeID) s.featureIndex s.coinTime s.featuresToConsider []
          SplitCandidate.invalid (List.range s.featureCount)).1.isValid = true →
        (findBestSplit flip s nodeID).1
          = (scanFeatures flip (getNode s nodeID) s.featureIndex s.coinTime
              s.featuresToConsider [] SplitCandidate.invalid (List.range s.featureCount)).1)
    ∧ ((scanFeatures flip (getNode s nodeID) s.featureIndex s.coinTime s.featuresToConsider []
          SplitCandidate.invalid (List.range s.featureCount)).1.isValid = false →
        (findBestSplit flip s nodeID).1
          = (match (scanFeatures flip (getNode s nodeID) s.featureIndex s.coinTime
                s.featuresToConsider [] SplitCandidate.invalid
                (List.range s.featureCount)).2.1.find?
                (fun f => (findBestSplitForFeature (getNode s nodeID) (s.featureIndex.getD f [])
                  f (scanFeatures flip (getNode s nodeID) s.featureIndex s.coinTime
                      s.featuresToConsider [] SplitCandidate.invalid
                      (List.range s.featureCount)).1).isValid) with
             | some f => findBestSplitForFeature (getNode s nodeID) (s.featureIndex.getD f []) f
                  (scanFeatures flip (getNode s nodeID) s.featureIndex s.coinTime
                    s.featuresToConsider [] SplitCandidate.invalid (List.range s.featureCount)).1
             | none => (scanFeatures flip (getNode s nodeID) s.featureIndex s.coinTime
                  s.featuresToConsider [] SplitCandidate.invalid (List.range s.featureCount)).1))
    ∧ ((findBestSplit flip s nodeID).1.isValid = false →
        growLeaf flip s nodeID = { s with coinTime := (findBestSplit flip s nodeID).2 }) := by
  refine ⟨?_, ?_, ?_, ?_, ?_⟩
  · rw [scanFeatures_skipped_length flip (getNode s nodeID) s.featureIndex hflip0 hflipAll
      (List.range s.featureCount) s.coinTime s.featuresToConsider [] SplitCandidate.invalid
      (by rw [List.length_range]; exact hK)]
    rw [List.length_range]
    simp
  · exact scanFeatures_skipped_sorted flip (getNode s nodeID) s.featureIndex
      (List.range s.featureCount) s.coinTime s.featuresToConsider [] SplitCandidate.invalid
      List.Pairwise.nil (fun x hx => absurd hx (List.not_mem_nil x)) (List.pairwise_lt_range _)
  · intro h
    rw [findBestSplit_eq_ite, if_pos h]
  · intro h
    rw [findBestSplit_eq_ite, if_neg (by rw [h]; exact Bool.false_ne_true)]
    exact fallbackScan_first_valid (getNode s nodeID) s.featureIndex _ _ h
  · intro h
    rw [growLeaf_eq_ite, if_neg (by rw [h]; exact Bool.false_ne_true)]

/-- C6 witness: the selection theorem applied to a one-feature state
with the pick-while-credits-remain coin. -/
theorem findBestSplit_selection_witness :
    (scanFeatures pickFirstCoin
        (getNode ⟨[0, 1], 2, 1, 1, 4294967295, 0, [0],
          [Node.make (LabelFrequencyTable.ofLabels [0, 1]) 0 0],
          [[⟨0, 0, 0⟩, ⟨1, 1, 1⟩]], 0⟩ 0)
        (⟨[0, 1], 2, 1, 1, 4294967295, 0, [0],
          [Node.make (LabelFrequencyTable.ofLabels [0, 1]) 0 0],
          [[⟨0, 0, 0⟩, ⟨1, 1, 1⟩]], 0⟩ : TreeState).featureIndex 0 1 []
        SplitCandidate.invalid (List.range 1)).2.1.length = 1 - 1 :=
  (findBestSplit_selection pickFirstCoin
    ⟨[0, 1], 2, 1, 1, 4294967295, 0, [0],
      [Node.make (LabelFrequencyTable.ofLabels [0, 1]) 0 0],
      [[⟨0, 0, 0⟩, ⟨1, 1, 1⟩]], 0⟩ 0
    (fun _ _ _ => rfl)
    (fun t n hn => by simp only [pickFirstCoin, decide_eq_true_eq]; omega)
    (by decide)).1

/-! ### Facts about split totals and termination of growth -/

/-- The default-constructed candidate is invalid: its impurity is the
maximal floating-point value, far above 1. -/
theorem invalid_not_isValid : SplitCandidate.invalid.isValid = false := by
  unfold SplitCandidate.isValid SplitCandidate.invalid
  rw [decide_eq_false_iff_not]
  show ¬ floatMax ≤ 1
  unfold floatMax
  norm_num

/-- The stable minimum-fold returns the initial candidate or a member
of the candidate list. -/
theorem foldl_choice_mem :
    ∀ (l : List SplitCandidate) (b : SplitCandidate),
      l.foldl (fun b c => if c.impurity < b.impurity then c else b) b = b
      ∨ l.foldl (fun b c => if c.impurity < b.impurity then c else b) b ∈ l := by
  intro l
  induction l with
  | nil => intro b; exact Or.inl rfl
  | cons c l ih =>
    intro b
    rw [List.foldl_cons]
    by_cases h : c.impurity < b.impurity
    · rw [if_pos h]
      rcases ih c with heq | hmem
      · right
        rw [heq]
        exact List.mem_cons_self c l
      · exact Or.inr (List.mem_cons_of_mem c hmem)
    · rw [if_neg h]
      rcases ih b with heq | hmem
      · exact Or.inl heq
      · exact Or.inr (List.mem_cons_of_mem c hmem)

/-- Each increment of the left table raises its total by one. -/
theorem leftTableAt_total (base : LabelFrequencyTable) (slice : List FeatureIndexEntry)
    (j : Nat) : (leftTableAt base slice j).total = base.total + (slice.take j).length := by
  unfold leftTableAt
  generalize slice.take j = l
  induction l generalizing base with
  | nil => simp
  | cons e l ih =>
    rw [List.foldl_cons, ih]
    show (base.total + 1) + l.length = base.total + (l.length + 1)
    omega

/-- Each decrement of the right table lowers its total by one
(truncated at zero). -/
theorem rightTableAt_total (base : LabelFrequencyTable) (slice : List FeatureIndexEntry)
    (j : Nat) : (rightTableAt base slice j).total = base.total - (slice.take j).length := by
  unfold rightTableAt
  generalize slice.take j = l
  induction l generalizing base with
  | nil => simp
  | cons e l ih =>
    rw [List.foldl_cons, ih]
    show (base.total - 1) - l.length = base.total - (l.length + 1)
    omega

/-- A per-feature scan either returns the incoming candidate untouched,
or a candidate whose two sides are nonempty and together hold exactly
the node's points: candidates are proposed only at strict value
increases, so at least one point lies before the boundary and at least
one at or after it. -/
theorem findBestSplitForFeature_totals (nd : Node) (fi : List FeatureIndexEntry) (fid : Nat)
    (c : SplitCandidate) :
    findBestSplitForFeature nd fi fid c = c
    ∨ (1 ≤ (findBestSplitForFeature nd fi fid c).leftCounts.total
       ∧ 1 ≤ (findBestSplitForFeature nd fi fid c).rightCounts.total
       ∧ (findBestSplitForFeature nd fi fid c).leftCounts.total
           + (findBestSplitForFeature nd fi fid c).rightCounts.total
         = nd.labelCounts.total) := by
  rw [findBestSplitForFeature_eq_foldl nd fi fid c]
  rcases foldl_choice_mem (scanCandidates nd fi fid) c with heq | hmem
  · exact Or.inl heq
  · right
    obtain ⟨j, hj1, hjlen, _, hceq⟩ := scanCandidates_shape nd fi fid _ hmem
    have hslice : (nodeSlice nd fi).length ≤ nd.labelCounts.total := by
      unfold nodeSlice
      rw [List.length_take]
      exact min_le_left _ _
    have htake : ((nodeSlice nd fi).take j).length = j := by
      rw [List.length_take]
      omega
    rw [hceq]
    unfold SplitCandidate.make
    refine ⟨?_, ?_, ?_⟩
    · show 1 ≤ (leftTableAt (LabelFrequencyTable.ofSize nd.labelCounts.size)
        (nodeSlice nd fi) j).total
      rw [leftTableAt_total, htake]
      show 1 ≤ 0 + j
      omega
    · show 1 ≤ (rightTableAt nd.labelCounts (nodeSlice nd fi) j).total
      rw [rightTableAt_total, htake]
      omega
    · show (leftTableAt (LabelFrequencyTable.ofSize nd.labelCounts.size)
          (nodeSlice nd fi) j).total
        + (rightTableAt nd.labelCounts (nodeSlice nd fi) j).total
        = nd.labelCounts.total
      rw [leftTableAt_total, rightTableAt_total, htake]
      show 0 + j + (nd.labelCounts.total - j) = nd.labelCounts.total
      omega

/-- The selection pass preserves the incoming candidate or returns one
with the nonempty-sides totals property. -/
theorem scanFeatures_totals (flip : Nat → Nat → Nat → Bool) (nd : Node)
    (fidx : List (List FeatureIndexEntry)) :
    ∀ (fs : List Nat) (t toScan : Nat) (sk : List Nat) (best : SplitCandidate),
      (scanFeatures flip nd fidx t toScan sk best fs).1 = best
      ∨ (1 ≤ (scanFeatures flip nd fidx t toScan sk best fs).1.leftCounts.total
         ∧ 1 ≤ (scanFeatures flip nd fidx t toScan sk best fs).1.rightCounts.total
         ∧ (scanFeatures flip nd fidx t toScan sk best fs).1.leftCounts.total
             + (scanFeatures flip nd fidx t toScan sk best fs).1.rightCounts.total
           = nd.labelCounts.total) := by
  intro fs
  induction fs with
  | nil => intro t toScan sk best; exact Or.inl rfl
  | cons f fs ih =>
    intro t toScan sk best
    simp only [scanFeatures]
    by_cases hc : flip t toScan (fs.length + 1)
    · rw [if_pos hc]
      rcases ih (t + 1) (toScan - 1) sk (findBestSplitForFeature nd (fidx.getD f []) f best)
          with heq | hok
      · rw [heq]
        exact findBestSplitForFeature_totals nd (fidx.getD f []) f best
      · exact Or.inr hok
    · rw [if_neg hc]
      exact ih (t + 1) toScan (sk ++ [f]) best

/-- The fallback pass preserves the incoming candidate or returns one
with the nonempty-sides totals property. -/
theorem fallbackScan_totals (nd : Node) (fidx : List (List FeatureIndexEntry)) :
    ∀ (fs : List Nat) (best : SplitCandidate),
      fallbackScan nd fidx best fs = best
      ∨ (1 ≤ (fallbackScan nd fidx best fs).leftCounts.total
         ∧ 1 ≤ (fallbackScan nd fidx best fs).rightCounts.total
         ∧ (fallbackScan nd fidx best fs).leftCounts.total
             + (fallbackScan nd fidx best fs).rightCounts.total
           = nd.labelCounts.total) := by
  intro fs
  induction fs with
  | nil => intro best; exact Or.inl rfl
  | cons f fs ih =>
    intro best
    simp only [fallbackScan]
    by_cases hv : (findBestSplitForFeature nd (fidx.getD f []) f best).isValid
    · rw [if_pos hv]
      exact findBestSplitForFeature_totals nd (fidx.getD f []) f best
    · rw [if_neg hv]
      rcases ih (findBestSplitForFeature nd (fidx.getD f []) f best) with heq | hok
      · rw [heq]
        exact findBestSplitForFeature_totals nd (fidx.getD f []) f best
      · exact Or.inr hok

/-- A valid candidate returned by `findBestSplit` has at least one
point on each side, and its sides together hold exactly the points of
the node being split. -/
theorem findBestSplit_valid_totals (flip : Nat → Nat → Nat → Bool) (s : TreeState)
    (nodeID : Nat) (hv : (findBestSplit flip s nodeID).1.isValid = true) :
    1 ≤ (findBestSplit flip s nodeID).1.leftCounts.total
    ∧ 1 ≤ (findBestSplit flip s nodeID).1.rightCounts.total
    ∧ (findBestSplit flip s nodeID).1.leftCounts.total
        + (findBestSplit flip s nodeID).1.rightCounts.total
      = (getNode s nodeID).labelCounts.total := by
  rw [findBestSplit_eq_ite] at hv ⊢
  by_cases hb : (scanFeatures flip (getNode s nodeID) s.featureIndex s.coinTime
      s.featuresToConsider [] SplitCandidate.invalid (List.range s.featureCount)).1.isValid
  · rw [if_pos hb] at hv ⊢
    rcases scanFeatures_totals flip (getNode s nodeID) s.featureIndex
        (List.range s.featureCount) s.coinTime s.featuresToConsider []
        SplitCandidate.invalid with heq | hok
    · rw [heq] at hb
      rw [invalid_not_isValid] at hb
      cases hb
    · exact hok
  · rw [if_neg hb] at hv ⊢
    rcases fallbackScan_totals (getNode s nodeID) s.featureIndex
        (scanFeatures flip (getNode s nodeID) s.featureIndex s.coinTime s.featuresToConsider
          [] SplitCandidate.invalid (List.range s.featureCount)).2.1
        (scanFeatures flip (getNode s nodeID) s.featureIndex s.coinTime s.featuresToConsider
          [] SplitCandidate.invalid (List.range s.featureCount)).1 with heq | hok
    · rw [heq] at hv
      rcases scanFeatures_totals flip (getNode s nodeID) s.featureIndex
          (List.range s.featureCount) s.coinTime s.featuresToConsider []
          SplitCandidate.invalid with heq2 | hok2
      · rw [heq2, invalid_not_isValid] at hv
        cases hv
      · rw [heq]
        exact hok2
    · exact hok

/-- One step of `growNextLeaf` on a cons queue. -/
theorem growNextLeaf_cons (flip : Nat → Nat → Nat → Bool) (s : TreeState)
    (leaf : Nat) (rest : List Nat) (hq : s.growableLeaves = leaf :: rest) :
    growNextLeaf flip s = growLeaf flip { s with growableLeaves := rest } leaf := by
  unfold growNextLeaf
  rw [hq]

theorem lt_twice_sub_one_add (m k : Nat) (h : 1 ≤ k) : m < 2 * k - 1 + m := by
  omega

/-- Applying a split with nonempty sides that together hold the
parent's n points adds less to the measure than the parent's
contribution 2n − 1: the children contribute at most
(2j − 1) + (2(n−j) − 1) = 2n − 2, and the queued leaves keep their
counts.  Well-formedness of the queue is preserved. -/
theorem splitNode_measure_WF (s2 : TreeState) (leaf : Nat) (cand : SplitCandidate)
    (hleafnotin : leaf ∉ s2.growableLeaves)
    (hqWF : ∀ id ∈ s2.growableLeaves, id < s2.nodes.length
        ∧ (getNode s2 id).isLeafNode = true ∧ 0 < (getNode s2 id).labelCounts.total)
    (hqnodup : s2.growableLeaves.Nodup)
    (hj : 1 ≤ cand.leftCounts.total) (hk : 1 ≤ cand.rightCounts.total)
    (hsum : cand.leftCounts.total + cand.rightCounts.total
        = (getNode s2 leaf).labelCounts.total) :
    growMeasure (splitNode s2 leaf cand)
        < (2 * (getNode s2 leaf).labelCounts.total - 1) + growMeasure s2
    ∧ WFState (splitNode s2 leaf cand) := by
  have hsplit_other : ∀ id ∈ s2.growableLeaves,
      getNode (splitNode s2 leaf cand) id = getNode s2 id := by
    intro id hid
    exact splitNode_getNode_other s2 leaf cand id (hqWF id hid).1
      (fun heq => hleafnotin (heq ▸ hid))
  have hleft := splitNode_getNode_left s2 leaf cand
  have hright := splitNode_getNode_right s2 leaf cand
  have hlen := splitNode_length s2 leaf cand
  have hqueue := splitNode_growableLeaves s2 leaf cand
  constructor
  · rw [growMeasure, hqueue, List.map_append, List.map_append, List.sum_append,
      List.sum_append]
    have hrest_eq : (s2.growableLeaves.map fun id =>
          2 * (getNode (splitNode s2 leaf cand) id).labelCounts.total - 1).sum
        = (s2.growableLeaves.map fun id =>
          2 * (getNode s2 id).labelCounts.total - 1).sum := by
      rw [List.map_congr_left fun id hid => by rw [hsplit_other id hid]]
    rw [hrest_eq]
    have hleft_sum : ((if isGrowableNode (splitNode s2 leaf cand) s2.nodes.length
          then [s2.nodes.length] else []).map fun id =>
            2 * (getNode (splitNode s2 leaf cand) id).labelCounts.total - 1).sum
        ≤ 2 * cand.leftCounts.total - 1 := by
      by_cases hg : isGrowableNode (splitNode s2 leaf cand) s2.nodes.length
      · rw [if_pos hg, List.map_singleton, List.sum_singleton, hleft]
        exact Nat.le_refl _
      · rw [if_neg hg]
        exact Nat.zero_le _
    have hright_sum : ((if isGrowableNode (splitNode s2 leaf cand) (s2.nodes.length + 1)
          then [s2.nodes.length + 1] else []).map fun id =>
            2 * (getNode (splitNode s2 leaf cand) id).labelCounts.total - 1).sum
        ≤ 2 * cand.rightCounts.total - 1 := by
      by_cases hg : isGrowableNode (splitNode s2 leaf cand) (s2.nodes.length + 1)
      · rw [if_pos hg, List.map_singleton, List.sum_singleton, hright]
        exact Nat.le_refl _
      · rw [if_neg hg]
        exact Nat.zero_le _
    rw [growMeasure]
    omega
  · constructor
    · rw [hqueue]
      have hNnotin : s2.nodes.length ∉ s2.growableLeaves := fun hmem =>
        absurd (hqWF _ hmem).1 (lt_irrefl _)
      have hN1notin : s2.nodes.length + 1 ∉ s2.growableLeaves := fun hmem => by
        have := (hqWF _ hmem).1
        omega
      by_cases hg1 : isGrowableNode (splitNode s2 leaf cand) s2.nodes.length
        <;> by_cases hg2 : isGrowableNode (splitNode s2 leaf cand) (s2.nodes.length + 1)
        <;> simp [hg1, hg2, List.nodup_append, hqnodup, hNnotin, hN1notin]
    · intro id hid
      rw [hqueue] at hid
      rcases List.mem_append.mp hid with hid' | hid2
      · rcases List.mem_append.mp hid' with hid3 | hid4
        · obtain ⟨ha, hb, hc⟩ := hqWF id hid3
          rw [hsplit_other id hid3, hlen]
          exact ⟨by omega, hb, hc⟩
        · have hidN : id = s2.nodes.length := by
            by_cases hg : isGrowableNode (splitNode s2 leaf cand) s2.nodes.length
            · rw [if_pos hg] at hid4
              exact List.mem_singleton.mp hid4
            · rw [if_neg hg] at hid4
              cases hid4
          subst hidN
          rw [hleft, hlen]
          exact ⟨by omega, rfl, hj⟩
      · have hidN : id = s2.nodes.length + 1 := by
          by_cases hg : isGrowableNode (splitNode s2 leaf cand) (s2.nodes.length + 1)
          · rw [if_pos hg] at hid2
            exact List.mem_singleton.mp hid2
          · rw [if_neg hg] at hid2
            cases hid2
        subst hidN
        rw [hright, hlen]
        exact ⟨by omega, rfl, hk⟩

/-- Every growth step strictly decreases the measure and preserves the
queue's well-formedness: an unsplittable leaf is dropped (removing its
positive contribution 2n − 1 ≥ 1), and a split replaces that
contribution by at most 2n − 2. -/
theorem growNextLeaf_measure (flip : Nat → Nat → Nat → Bool) (s : TreeState)
    (hWF : WFState s) (hne : s.growableLeaves ≠ []) :
    growMeasure (growNextLeaf flip s) < growMeasure s
    ∧ WFState (growNextLeaf flip s) := by
  obtain ⟨hnodup, hids⟩ := hWF
  rcases hq : s.growableLeaves with _ | ⟨leaf, rest⟩
  · exact absurd hq hne
  obtain ⟨hleaflt, hleafleaf, hleafcnt⟩ :=
    hids leaf (by rw [hq]; exact List.mem_cons_self _ _)
  have hrestWF : ∀ id ∈ rest, id < s.nodes.length ∧ (getNode s id).isLeafNode = true
      ∧ 0 < (getNode s id).labelCounts.total :=
    fun id hid => hids id (by rw [hq]; exact List.mem_cons_of_mem _ hid)
  have hrestnodup : rest.Nodup := (List.nodup_cons.mp (hq ▸ hnodup)).2
  have hleafnotin : leaf ∉ rest := (List.nodup_cons.mp (hq ▸ hnodup)).1
  have hms : growMeasure s
      = (2 * (getNode s leaf).labelCounts.total - 1)
        + (rest.map fun id => 2 * (getNode s id).labelCounts.total - 1).sum := by
    rw [growMeasure, hq, List.map_cons, List.sum_cons]
  rw [growNextLeaf_cons flip s leaf rest hq, growLeaf_eq_ite]
  by_cases hv : (findBestSplit flip { s with growableLeaves := rest } leaf).1.isValid
  · rw [if_pos hv]
    obtain ⟨hj, hk, hsum⟩ :=
      findBestSplit_valid_totals flip { s with growableLeaves := rest } leaf hv
    have haux := splitNode_measure_WF
      { s with growableLeaves := rest, coinTime := (findBestSplit flip { s with growableLeaves := rest } leaf).2 }
      leaf (findBestSplit flip { s with growableLeaves := rest } leaf).1
      hleafnotin hrestWF hrestnodup hj hk hsum
    refine ⟨?_, haux.2⟩
    rw [hms]
    exact haux.1
  · rw [if_neg hv]
    refine ⟨?_, hrestnodup, fun id hid => hrestWF id hid⟩
    rw [hms]
    exact lt_twice_sub_one_add _ _ hleafcnt

/-- With fuel at least the measure, the growth loop runs the queue
dry. -/
theorem growFuel_exhausts (flip : Nat → Nat → Nat → Bool) :
    ∀ (fuel : Nat) (s : TreeState), WFState s → growMeasure s ≤ fuel →
      (growFuel flip fuel s).growableLeaves = [] := by
  intro fuel
  induction fuel with
  | zero =>
    intro s hWF hm
    rcases hq : s.growableLeaves with _ | ⟨leaf, rest⟩
    · exact hq
    · exfalso
      have hn : 0 < (getNode s leaf).labelCounts.total :=
        (hWF.2 leaf (by rw [hq]; exact List.mem_cons_self _ _)).2.2
      rw [growMeasure, hq, List.map_cons, List.sum_cons] at hm
      omega
  | succ fuel ih =>
    intro s hWF hm
    rcases hq : s.growableLeaves with _ | ⟨leaf, rest⟩
    · have hng : isGrowable s = false := by
        simp [isGrowable, hq]
      show (if isGrowable s = true then growFuel flip fuel (growNextLeaf flip s)
        else s).growableLeaves = []
      rw [hng, if_neg Bool.false_ne_true]
      exact hq
    · have hne : s.growableLeaves ≠ [] := by
        rw [hq]
        exact List.cons_ne_nil _ _
      have hg : isGrowable s = true := by
        simp [isGrowable, hq]
      obtain ⟨hdec, hWF'⟩ := growNextLeaf_measure flip s hWF hne
      have hstep : growFuel flip (fuel + 1) s = growFuel flip fuel (growNextLeaf flip s) := by
        show (if isGrowable s = true then growFuel flip fuel (growNextLeaf flip s) else s)
          = growFuel flip fuel (growNextLeaf flip s)
        rw [hg, if_pos rfl]
      rw [hstep]
      exact ih (growNextLeaf flip s) hWF' (by omega)

/-- The constructed initial state is well-formed: the queue is empty or
holds only the root, which is a fresh leaf over all `pointCount ≥ 1`
points (the label vector covers every point). -/
theorem initTree_WF (dataPoints : List ℚ) (labels : List Nat)
    (featureCount pointCount featuresToConsider maximumDistanceToRoot : Nat)
    (impurityThreshold : ℚ)
    (hp : 1 ≤ pointCount) (hl : pointCount ≤ labels.length) :
    WFState (initTree dataPoints labels featureCount pointCount featuresToConsider
      maximumDistanceToRoot impurityThreshold) := by
  have hcnt : (LabelFrequencyTable.ofLabels (labels.take pointCount)).total = pointCount := by
    show (labels.take pointCount).length = pointCount
    rw [List.length_take]
    omega
  constructor
  · show (if _ then [0] else []).Nodup
    split
    · exact List.nodup_singleton 0
    · exact List.nodup_nil
  · intro id hid
    have hid0 : id = 0 := by
      revert hid
      show id ∈ (if _ then [0] else []) → id = 0
      split
      · intro h
        exact List.mem_singleton.mp h
      · intro h
        cases h
    subst hid0
    refine ⟨?_, rfl, ?_⟩
    · show 0 < 1
      omega
    · show 0 < (LabelFrequencyTable.ofLabels (labels.take pointCount)).total
      omega

/-- C10: for every construction input with at least one point (and a
label for every point), growing the tree to exhaustion terminates:
`grow()`'s loop runs the queue of growable leaves dry within
`growMeasure` steps.  The mechanism, proved in
`findBestSplit_valid_totals` and `splitNode_measure_WF`: every applied
split comes from a candidate proposed at a strict feature-value
increase, so both children contain at least one point and together
exactly the parent's points — strictly fewer than the parent each —
which makes the measure (the sum of 2·points − 1 over queued leaves)
strictly decrease at every growth step. -/
theorem grow_terminates (flip : Nat → Nat → Nat → Bool) (dataPoints : List ℚ)
    (labels : List Nat)
    (featureCount pointCount featuresToConsider maximumDistanceToRoot : Nat)
    (impurityThreshold : ℚ)
    (hp : 1 ≤ pointCount) (hl : pointCount ≤ labels.length) :
    (∀ (s : TreeState) (nodeID : Nat),
      (findBestSplit flip s nodeID).1.isValid = true →
        1 ≤ (findBestSplit flip s nodeID).1.leftCounts.total
        ∧ 1 ≤ (findBestSplit flip s nodeID).1.rightCounts.total
        ∧ (findBestSplit flip s nodeID).1.leftCounts.total
            + (findBestSplit flip s nodeID).1.rightCounts.total
          = (getNode s nodeID).labelCounts.total)
    ∧ (growFuel flip
        (growMeasure (initTree dataPoints labels featureCount pointCount featuresToConsider
          maximumDistanceToRoot impurityThreshold))
        (initTree dataPoints labels featureCount pointCount featuresToConsider
          maximumDistanceToRoot impurityThreshold)).growableLeaves = [] :=
  ⟨fun s nodeID hv => findBestSplit_valid_totals flip s nodeID hv,
   growFuel_exhausts flip _ _
     (initTree_WF dataPoints labels featureCount pointCount featuresToConsider
       maximumDistanceToRoot impurityThreshold hp hl)
     (Nat.le_refl _)⟩

/-- C10 witness: growth terminates on a concrete two-point, one-feature
training set. -/
theorem grow_terminates_witness :
    (growFuel pickFirstCoin
        (growMeasure (initTree [0, 1] [0, 1] 1 2 1 4294967295 0))
        (initTree [0, 1] [0, 1] 1 2 1 4294967295 0)).growableLeaves = [] :=
  (grow_terminates pickFirstCoin [0, 1] [0, 1] 1 2 1 4294967295 0
    (by decide) (by decide)).2

/-! ### The Gini slip propagates into training (C2) -/

/-- Unfolded growability test. -/
theorem isGrowableNode_eq (s : TreeState) (i : Nat) :
    isGrowableNode s i
      = (if s.maximumDistanceToRoot ≤ (getNode s i).distanceToRoot then false
         else if decide ((getNode s i).labelCounts.giniImpurity ≤ s.impurityThreshold)
           then false else true) := rfl

/-- The constructed queue holds the root exactly if the root is
growable. -/
theorem initTree_growableLeaves (dataPoints : List ℚ) (labels : List Nat)
    (featureCount pointCount featuresToConsider maximumDistanceToRoot : Nat)
    (impurityThreshold : ℚ) :
    (initTree dataPoints labels featureCount pointCount featuresToConsider
        maximumDistanceToRoot impurityThreshold).growableLeaves
      = (if isGrowableNode (initTree dataPoints labels featureCount pointCount
            featuresToConsider maximumDistanceToRoot impurityThreshold) 0
         then [0] else []) := rfl

/-- C2: training on the duplicate-free set {0 ↦ label 0, 1 ↦ label 1}
(one feature, maxDepth = 2³² − 1 = ∞, impurityThreshold = 0,
featuresToConsider = 1) and running grow() to exhaustion yields a tree
that labels BOTH training points 0 — 50% training accuracy, not the
claimed 100%.  The cause is the slip established in
`giniImpurity_eval`: the helper computes 1 − (Σ cᵢ²)/T, which is 0 for
the root's counts (1,1) instead of the true Gini 1/2, so the root
already fails the growability test gini > 0 and the tree never grows
beyond a single leaf.  (With the documented formula the root's
impurity would be 1/2 > 0 and the tree would split at value 1,
classifying both points correctly.) -/
theorem trained_tree_misclassifies_training_set :
    DecisionTreeClassifier.classify
      (getDecisionTree (growFuel pickFirstCoin
        (growMeasure (initTree [0, 1] [0, 1] 1 2 1 4294967295 0))
        (initTree [0, 1] [0, 1] 1 2 1 4294967295 0)))
      [0, 1]
      = Except.ok [0, 0]
    ∧ (Except.ok ([0, 0] : List Nat) : Except BalsaError (List Nat)) ≠ Except.ok [0, 1] := by
  have hgini : (LabelFrequencyTable.ofLabels ([0, 1] : List Nat)).giniImpurity = 0 := by
    have h12 : LabelFrequencyTable.ofLabels ([0, 1] : List Nat)
        = ⟨[1, 1], 2⟩ := by decide
    rw [h12]
    norm_num [LabelFrequencyTable.giniImpurity]
  have hroot : getNode (initTree [0, 1] [0, 1] 1 2 1 4294967295 0) 0
      = Node.make (LabelFrequencyTable.ofLabels [0, 1]) 0 0 := rfl
  have hgrow : isGrowableNode (initTree [0, 1] [0, 1] 1 2 1 4294967295 0) 0 = false := by
    rw [isGrowableNode_eq, hroot]
    rw [if_neg (by show ¬ (4294967295 ≤ 0); omega)]
    rw [show (Node.make (LabelFrequencyTable.ofLabels [0, 1]) 0 0).labelCounts
      = LabelFrequencyTable.ofLabels [0, 1] from rfl]
    rw [hgini]
    rw [show (initTree [0, 1] [0, 1] 1 2 1 4294967295 0).impurityThreshold = 0 from rfl]
    norm_num
  have hq0 : (initTree [0, 1] [0, 1] 1 2 1 4294967295 0).growableLeaves = [] := by
    rw [initTree_growableLeaves, hgrow]
    exact if_neg Bool.false_ne_true
  have hm0 : growMeasure (initTree [0, 1] [0, 1] 1 2 1 4294967295 0) = 0 := by
    rw [growMeasure, hq0]
    rfl
  have hgf : growFuel pickFirstCoin
      (growMeasure (initTree [0, 1] [0, 1] 1 2 1 4294967295 0))
      (initTree [0, 1] [0, 1] 1 2 1 4294967295 0)
      = initTree [0, 1] [0, 1] 1 2 1 4294967295 0 := by
    rw [hm0]
    rfl
  have hcls : getDecisionTree (initTree [0, 1] [0, 1] 1 2 1 4294967295 0)
      = { classCount := 2, featureCount := 1, leftChildID := [0], rightChildID := [0],
          splitFeatureID := [0], splitValue := [0], label := [0] } := by decide
  rw [hgf, hcls]
  constructor
  · rfl
  · simp

end Balsa
